import Mathlib

/-!
# luks-bruteforce: the search coordinator of `bforce.cpp`

A shallow embedding of the pieces of `src/bforce.cpp` that carry invariants:

* the partition loop of `main` (lines 295-314),
* the passphrase rendering of `worker` (lines 183-200),
* the per-worker loop with its batched progress counter (lines 171-224),
* the interleaving of several workers around the acceptance branch (lines 173-213),
* the k-permutation enumeration loop of `main` (lines 264-277) on top of
  `next_partial_permutation` (lines 51-57).

Conventions: a `std::string` is a `List Char`, compared lexicographically as `std::string`
is; `unsigned long long` counters are `Nat` (every value that occurs is bounded by the size of
the candidate vector); the verifier `crypt_activate_by_passphrase` is an arbitrary function to
its `int` result; the library functions `std::sort`, `std::reverse` and
`std::next_permutation` are given by their standard behaviour.
-/

namespace Bforce

/-! ## Partition loop of `main` -/

/-- The `for (int i = 1; i <= create_threads; ++i)` loop of `main` (lines 300-314), with the
remaining iteration count as the recursion argument.  Each iteration hands `[first, last)` to a
new worker, then sets `first = last` and advances `last` by `chunk + 1` (decrementing `rem`)
when `rem` is non-zero and by `chunk` otherwise. -/
def partitionLoop (chunk : Nat) : Nat → Nat → Nat → Nat → List (Nat × Nat)
  | 0, _, _, _ => []
  | w + 1, first, last, rem =>
      (first, last) ::
        (if rem ≠ 0 then partitionLoop chunk w last (last + (chunk + 1)) (rem - 1)
         else partitionLoop chunk w last (last + chunk) rem)

/-- The ranges handed to the workers by `main` for a candidate vector of size `T` and
`create_threads = W`: `chunk = T / W`, `rem = T % W`, `first = begin`, `last = first + chunk`
(lines 295-298), followed by the loop. -/
def partitions (T W : Nat) : List (Nat × Nat) :=
  partitionLoop (T / W) W 0 (T / W) (T % W)

/-- Size of a half-open range `[first, last)`. -/
def rangeSize (p : Nat × Nat) : Nat := p.2 - p.1

/-- Start of the range of worker `j + 1` in `partitions T W`. -/
def partStart (T W j : Nat) : Nat :=
  if j = 0 then 0 else T / W * j + min (j - 1) (T % W)

/-! ## Passphrase rendering of `worker` -/

/-- The function `std::isspace` in the classic locale, the one the `istringstream` of `worker`
uses to delimit the words it extracts: space, `\t`, `\n`, `\v`, `\f`, `\r`. -/
def isspace (c : Char) : Bool :=
  c.toNat = 32 || (9 ≤ c.toNat && c.toNat ≤ 13)

/-- The call `std::toupper(c, std::locale())`: the program never installs a global locale, so
the locale is the classic one, which maps `a`..`z` to `A`..`Z` and leaves every other character
alone. -/
def toupper (c : Char) : Char :=
  if 97 ≤ c.toNat ∧ c.toNat ≤ 122 then Char.ofNat (c.toNat - 32) else c

/-- The words `std::istream_iterator<std::string>` extracts from the stream (line 184): `cur`
is the word being read; a whitespace character ends it (an empty `cur` means leading
whitespace, which `operator>>` skips), end of input ends the last word. -/
def tokens : List Char → List Char → List (List Char)
  | cur, [] => if cur.isEmpty then [] else [cur]
  | cur, c :: cs =>
      if isspace c then (if cur.isEmpty then tokens [] cs else cur :: tokens [] cs)
      else tokens (cur ++ [c]) cs

/-- Lines 190-191 and 193-194: `it = (word.begin())->begin(); *it = toupper(*it)`.  (On an
empty `word`, or an empty first word, the source dereferences an invalid iterator; here nothing
is changed.  The extracted words are never empty.) -/
def upperFirst (word : List (List Char)) : List (List Char) :=
  word.modifyHead (List.modifyHead toupper)

/-- Lines 195-196: `it = (word.end() - 1)->end() - 1; *it = toupper(*it)`, with the same
remark on an empty `word`. -/
def upperLast (word : List (List Char)) : List (List Char) :=
  word.modifyLast (List.modifyLast toupper)

/-- Lines 199-200: every word but the last is written followed by `" "`, then the last word
(nothing for an empty `word`, where the source calls `back()` on an empty vector). -/
def joinOut (word : List (List Char)) : List Char :=
  (word.dropLast.map (fun w => w ++ [' '])).flatten ++ word.getLastD []

/-- The casing step of `worker` on the word vector (lines 189-197): under `test_flag` only the
first character of the first word is upper-cased, otherwise also the last character of the last
word. -/
def applyCase (test_flag : Bool) (word : List (List Char)) : List (List Char) :=
  if test_flag then upperFirst word else upperLast (upperFirst word)

/-- The passphrase `worker` builds from the raw candidate `*iter` (lines 183-200): split into
words, apply the casing selected by `test_flag`, join again.  This is what the source computes
when the candidate holds at least one word, `tokens [] raw ≠ []`; on a candidate without a word
the source dereferences `begin()` of an empty vector and has no defined result, and the value
here means nothing.  Every statement about what a run of `worker` does is made for partitions
whose candidates all hold a word. -/
def render (test_flag : Bool) (raw : List Char) : List Char :=
  joinOut (applyCase test_flag (tokens [] raw))

/-- The raw candidate `p` that `main` builds from the sequence `N` (lines 268-272):
`N[0]`, then `" "` and `N[j]` for `1 <= j < k` (the source requires `k <= N.size()` and a
non-empty `N`). -/
def candidate (k : Nat) (N : List (List Char)) : List Char :=
  N.headD [] ++ (((N.take k).tail).map (fun w => ' ' :: w)).flatten

/-- Words a raw candidate is made of: non-empty and free of whitespace. -/
def GoodWords (ws : List (List Char)) : Prop :=
  ∀ w ∈ ws, w ≠ [] ∧ ∀ c ∈ w, isspace c = false

/-! ## The loop of `worker` -/

/-- What one run of `worker` has done so far: its local `intvl_count`, the total it has added to
the shared counter `luks_done`, whether it has executed `worker_terminate.exchange(true)`, the
passphrases it has passed to `crypt_activate_by_passphrase` (oldest first) and the passphrases
it has reported with `Found:`. -/
structure WorkerState where
  intvl_count : Nat
  luks_done : Nat
  worker_terminate : Bool
  calls : List (List Char)
  found : List (List Char)
  deriving DecidableEq, Repr

/-- State of `worker` when it enters its loop (line 172). -/
def WorkerState.init : WorkerState :=
  { intvl_count := 0, luks_done := 0, worker_terminate := false, calls := [], found := [] }

/-- One pass through the loop body of `worker` after the flag test (lines 177-220), on the
candidate `raw`, as iteration number `i`: bump `intvl_count` and flush it into `luks_done` when
it is a multiple of `batch_upd`; render the passphrase; call the verifier, whose result is
`rc = verify i pass`; when `rc >= 0`, report the passphrase and set the flag.  The rendering
step is that of the source when `raw` holds a word (see `render`). -/
def iteration (test_flag : Bool) (batch_upd : Nat) (verify : Nat → List Char → Int)
    (i : Nat) (raw : List Char) (st : WorkerState) : WorkerState :=
  let c := st.intvl_count + 1
  let flush := c % batch_upd = 0
  let pass := render test_flag raw
  let rc := verify i pass
  { intvl_count := if flush then 0 else c
    luks_done := if flush then st.luks_done + c else st.luks_done
    worker_terminate := st.worker_terminate || decide (rc ≥ 0)
    calls := st.calls ++ [pass]
    found := if rc ≥ 0 then st.found ++ [pass] else st.found }

/-- The `while (iter != last)` loop of `worker` (lines 173-221) over the candidates `part` still
ahead of `iter`; `i` counts the iterations already made.  `verify i pass` is the result of the
`i`-th call of `crypt_activate_by_passphrase`, `ext i` tells whether another thread has set
`worker_terminate` by the time iteration `i` tests it.  The loop breaks when the flag is set, by
this worker or by another one. -/
def workerLoop (test_flag : Bool) (batch_upd : Nat) (verify : Nat → List Char → Int)
    (ext : Nat → Bool) : Nat → List (List Char) → WorkerState → WorkerState
  | _, [], st => st
  | i, raw :: rest, st =>
      if st.worker_terminate || ext i then st
      else workerLoop test_flag batch_upd verify ext (i + 1) rest
        (iteration test_flag batch_upd verify i raw st)

/-- One run of `worker(first, last, path)` over the candidates `part` of `[first, last)`.
`init_rc` and `load_rc` are the results of `crypt_init` and `crypt_load` (lines 168-169), which
the function discards.  After the loop the remaining `intvl_count` is added to `luks_done`
(line 223). -/
def worker (test_flag : Bool) (batch_upd : Nat) (_init_rc _load_rc : Int)
    (verify : Nat → List Char → Int) (ext : Nat → Bool) (part : List (List Char)) :
    WorkerState :=
  let st := workerLoop test_flag batch_upd verify ext 0 part WorkerState.init
  { st with luks_done := st.luks_done + st.intvl_count }

/-- The candidates of the range `[first, last)` of the vector `k_perms`. -/
def slice (k_perms : List (List Char)) (p : Nat × Nat) : List (List Char) :=
  (k_perms.drop p.1).take (p.2 - p.1)

/-- Value of `luks_done` after all workers started by `main` have been joined: the sum of what
each worker added (the additions are atomic, so their order does not matter).  Worker `j` runs
over range `j` of `partitions`, with its own verifier results and flag observations. -/
def luksDoneAfterJoin (test_flag : Bool) (batch_upd : Nat)
    (verify : Nat → Nat → List Char → Int) (ext : Nat → Nat → Bool)
    (k_perms : List (List Char)) (W : Nat) : Nat :=
  (((partitions k_perms.length W).enum.map
    (fun jp => (worker test_flag batch_upd 0 0 (verify jp.1) (ext jp.1)
      (slice k_perms jp.2)).luks_done))).sum

/-- Invariant of the loop of `worker` after `i` iterations: `i` verifier calls were made, what
was added to `luks_done` plus the pending `intvl_count` is `i`, every call but the last was
rejected, the flag was set by this worker exactly when the last call was accepted, and the
reports are that accepted passphrase. -/
structure WorkerInv (verify : Nat → List Char → Int) (i : Nat) (st : WorkerState) : Prop where
  len : st.calls.length = i
  count : st.luks_done + st.intvl_count = i
  rejected : ∀ (j : Nat) (pass : List Char), j + 1 < i → st.calls[j]? = some pass →
    verify j pass < 0
  last_rejected : st.worker_terminate = false →
    ∀ (j : Nat) (pass : List Char), st.calls[j]? = some pass → verify j pass < 0
  accepted : st.worker_terminate = true →
    ∃ (j : Nat) (pass : List Char), i = j + 1 ∧ st.calls[j]? = some pass ∧
      0 ≤ verify j pass ∧ st.found = [pass]
  no_report : st.worker_terminate = false → st.found = []

/-! ## Several workers running concurrently -/

/-- Program points of `worker` between two accesses to shared state. -/
inductive Pc where
  /-- At `while (iter != last)` and the flag test (lines 173-175). -/
  | loopHead
  /-- Before the counter update (lines 177-181). -/
  | count
  /-- Before rendering and the verifier call (lines 183-206). -/
  | call
  /-- Verifier accepted (`rc >= 0`): before `print_mutex.lock()` (line 208). -/
  | lock
  /-- Holding the mutex, before the `Found:` output (lines 209-210). -/
  | print
  /-- Before `print_mutex.unlock()` (line 211). -/
  | unlock
  /-- Before `worker_terminate.exchange(true)` (line 212). -/
  | exchange
  /-- Before the clean-up and `++iter` (lines 215-220). -/
  | next
  /-- After the loop, before `luks_done += intvl_count` (lines 222-223). -/
  | flush
  /-- Returned. -/
  | done
  deriving DecidableEq, Repr

/-- Local variables of one `worker` thread: program point, the candidates from `iter` to
`last`, `intvl_count`, the passphrase in `oss` and the last verifier result `rc`. -/
structure Thread where
  pc : Pc
  rest : List (List Char)
  intvl_count : Nat
  pass : List Char
  rc : Int
  deriving DecidableEq, Repr

/-- The state shared by all threads: the atomics `worker_terminate` and `luks_done`, the holder
of `print_mutex` (if any) and the `Found:` reports written to `std::cout`, each tagged with the
thread that wrote it. -/
structure Globals where
  worker_terminate : Bool
  luks_done : Nat
  print_mutex : Option Nat
  out : List (Nat × List Char)
  deriving DecidableEq, Repr

/-- The shared state together with the local state of every worker thread. -/
structure System where
  g : Globals
  threads : List Thread
  deriving DecidableEq, Repr

/-- One atomic step of thread `t`: what it does between two accesses to shared state.  A thread
waiting for `print_mutex` held by another thread, and a thread that has returned, do not move.
`verify t pass` is the result of the verifier call of thread `t` on `pass`. -/
def threadStep (test_flag : Bool) (batch_upd : Nat) (verify : Nat → List Char → Int)
    (t : Nat) (g : Globals) (th : Thread) : Globals × Thread :=
  match th.pc with
  | Pc.loopHead =>
      if th.rest = [] then (g, { th with pc := Pc.flush })
      else if g.worker_terminate then (g, { th with pc := Pc.flush })
      else (g, { th with pc := Pc.count })
  | Pc.count =>
      if (th.intvl_count + 1) % batch_upd = 0 then
        ({ g with luks_done := g.luks_done + (th.intvl_count + 1) },
          { th with intvl_count := 0, pc := Pc.call })
      else (g, { th with intvl_count := th.intvl_count + 1, pc := Pc.call })
  | Pc.call =>
      let pass := render test_flag (th.rest.headD [])
      let rc := verify t pass
      (g, { th with pass := pass, rc := rc, pc := if rc ≥ 0 then Pc.lock else Pc.next })
  | Pc.lock =>
      if g.print_mutex = none then ({ g with print_mutex := some t }, { th with pc := Pc.print })
      else (g, th)
  | Pc.print => ({ g with out := g.out ++ [(t, th.pass)] }, { th with pc := Pc.unlock })
  | Pc.unlock => ({ g with print_mutex := none }, { th with pc := Pc.exchange })
  | Pc.exchange => ({ g with worker_terminate := true }, { th with pc := Pc.next })
  | Pc.next => (g, { th with rest := th.rest.tail, pc := Pc.loopHead })
  | Pc.flush => ({ g with luks_done := g.luks_done + th.intvl_count }, { th with pc := Pc.done })
  | Pc.done => (g, th)

/-- The scheduler lets thread `t` make one step (nothing happens when there is no thread
`t`). -/
def stepThread (test_flag : Bool) (batch_upd : Nat) (verify : Nat → List Char → Int)
    (t : Nat) (s : System) : System :=
  match s.threads[t]? with
  | none => s
  | some th =>
      { g := (threadStep test_flag batch_upd verify t s.g th).1
        threads := s.threads.set t (threadStep test_flag batch_upd verify t s.g th).2 }

/-- The states the system goes through under the schedule `sched` (the thread chosen at each
step), starting from `s`. -/
def trace (test_flag : Bool) (batch_upd : Nat) (verify : Nat → List Char → Int) :
    List Nat → System → List System
  | [], s => [s]
  | t :: sched, s =>
      s :: trace test_flag batch_upd verify sched (stepThread test_flag batch_upd verify t s)

/-- The state reached at the end of the schedule `sched`. -/
def run (test_flag : Bool) (batch_upd : Nat) (verify : Nat → List Char → Int) :
    List Nat → System → System
  | [], s => s
  | t :: sched, s =>
      run test_flag batch_upd verify sched (stepThread test_flag batch_upd verify t s)

/-- The system when the workers enter their loops: flag clear, counter zero, mutex free, nothing
printed, worker `t` at the head of its loop over `parts[t]`. -/
def System.init (parts : List (List (List Char))) : System :=
  { g := { worker_terminate := false, luks_done := 0, print_mutex := none, out := [] }
    threads := parts.map
      (fun part => { pc := Pc.loopHead, rest := part, intvl_count := 0, pass := [], rc := 0 }) }

/-- What the reports and the mutex say about thread `t`: a thread that has reported is past its
`Found:` output and, unless it is still between the output and its `exchange`, the flag is set
and it is on its way out of the loop; a thread is at the output or the unlock exactly when it
holds the mutex. -/
def ThreadInv (g : Globals) (t : Nat) (th : Thread) : Prop :=
  (t ∈ g.out.map Prod.fst →
    th.pc = Pc.unlock ∨ th.pc = Pc.exchange ∨
      (g.worker_terminate = true ∧
        (th.pc = Pc.next ∨ th.pc = Pc.loopHead ∨ th.pc = Pc.flush ∨ th.pc = Pc.done))) ∧
  ((th.pc = Pc.print ∨ th.pc = Pc.unlock) ↔ g.print_mutex = some t)

/-- Invariant of the whole system: every thread satisfies `ThreadInv`, no thread has written
two reports, and every report was written by an existing thread. -/
def SysInv (s : System) : Prop :=
  (∀ (t : Nat) (th : Thread), s.threads[t]? = some th → ThreadInv s.g t th) ∧
  (s.g.out.map Prod.fst).Nodup ∧
  (∀ t ∈ s.g.out.map Prod.fst, t < s.threads.length)

/-! ## k-permutation enumeration of `main` -/

section Enumeration

variable {α : Type} [LinearOrder α]

/-- The inner search and swap of `std::next_permutation`, on the reversed suffix (last element
first): `j = last; while (!(*i < *--j));` walks from the last element towards the front until it
meets the first element `x` with `p < x`, where `p = *i`; `iter_swap(i, j)` then puts `p` in its
place.  Returns `x` and the reversed suffix after the swap. -/
def swapRev (p : α) : List α → α × List α
  | [] => (p, [])
  | x :: xs => if p < x then (x, p :: xs) else ((swapRev p xs).1, x :: (swapRev p xs).2)

/-- The main loop of `std::next_permutation`: `ii` is `*ii`, `tail` the elements after `ii` up to
`last`, the first argument the elements before `ii`, nearest first, so that its head is `*i`
after `--i`.  If `*i < *ii` the pivot is found: search and swap in the suffix, `reverse(ii,
last)`, return `true`.  If `i` has reached `first` the whole range is reversed and the result
is `false`. -/
def nextPermScan : List α → α → List α → Bool × List α
  | [], ii, tail => (false, (ii :: tail).reverse)
  | p :: ps, ii, tail =>
      if p < ii then
        (true, ps.reverse ++ (swapRev p (ii :: tail).reverse).1 ::
          (swapRev p (ii :: tail).reverse).2)
      else nextPermScan ps p (ii :: tail)

/-- The library function `std::next_permutation(first, last)` on the sequence `l`, in the form
every standard library implements it: ranges of length 0 and 1 are left alone and give `false`;
otherwise scan from the right for the first `i` with `*i < *(i + 1)`, swap `*i` with the
rightmost element greater than it and reverse everything after `i`. -/
def next_permutation (l : List α) : Bool × List α :=
  match l.reverse with
  | [] => (false, l)
  | [_] => (false, l)
  | x :: p :: ps => nextPermScan (p :: ps) x []

/-- The function `next_partial_permutation(first, middle, last)` of lines 51-57, with
`middle = first + k`: `std::reverse(middle, last)` followed by
`std::next_permutation(first, last)`. -/
def next_partial_permutation (k : Nat) (l : List α) : Bool × List α :=
  next_permutation (l.take k ++ (l.drop k).reverse)

/-- The `do ... while (next_partial_permutation(...))` loop of `main` (lines 267-275): each pass
emits what `emit` makes of the current sequence `N`, then steps `N`; the loop ends when the step
returns `false`.  `fuel` bounds the number of passes; `none` means the bound was hit. -/
def enumLoop {β : Type} (emit : List α → β) (k : Nat) : Nat → List α → Option (List β)
  | 0, _ => none
  | fuel + 1, N =>
      match next_partial_permutation k N with
      | (true, N') => (enumLoop emit k fuel N').map (fun E => emit N :: E)
      | (false, _) => some [emit N]

/-- The k-word sequences `N[0], ..., N[k-1]` the loop of `main` emits for the base set `N`:
`std::sort(N.begin(), N.end())` (line 264), then the loop. -/
def kWordSeqs (k fuel : Nat) (N : List α) : Option (List (List α)) :=
  enumLoop (fun N => N.take k) k fuel (N.insertionSort (· ≤ ·))

/-- A k-permutation of `base`: an ordered selection of `k` distinct elements of `base`. -/
def IsKPerm (base : List α) (k : Nat) (q : List α) : Prop :=
  q.Nodup ∧ q.length = k ∧ ∀ x ∈ q, x ∈ base

/-- All k-permutations of `l`, by choice of the first element. -/
def kpermsOf : Nat → List α → List (List α)
  | 0, _ => [[]]
  | k + 1, l => (l.map (fun x => (kpermsOf k (l.erase x)).map (fun q => x :: q))).flatten

end Enumeration

/-- The vector `k_perms` that `main` fills (lines 264-275): the base set `N` is sorted, and each
pass of the loop pushes the string `p` built from `N[0], ..., N[k-1]`. -/
def k_perms (k fuel : Nat) (N : List (List Char)) : Option (List (List Char)) :=
  enumLoop (candidate k) k fuel (N.insertionSort (· ≤ ·))

/-- The values the sequence `N` takes at the top of the loop body of `main`: the sorted base
set, and what a step that returned `true` leaves behind. -/
inductive LoopState {α : Type} [LinearOrder α] (k : Nat) (base : List α) : List α → Prop
  | start : LoopState k base (base.insertionSort (· ≤ ·))
  | step (N : List α) : LoopState k base N → (next_partial_permutation k N).1 = true →
      LoopState k base (next_partial_permutation k N).2

/-! # Theorems -/

/-! ### Closed form of the partition loop -/

theorem partitionLoop_length (chunk : Nat) (w first last rem : Nat) :
    (partitionLoop chunk w first last rem).length = w := by
  induction w generalizing first last rem with
  | zero => rfl
  | succ w ih =>
    unfold partitionLoop
    split <;> simp [ih]

/-- Entry `j` of the loop output: the first range is `[first, last)`, and the `j`-th later range
starts `chunk * (j - 1) + min (j - 1) rem` after `last`. -/
theorem partitionLoop_getElem? (chunk : Nat) (w first last rem j : Nat) (hj : j < w) :
    (partitionLoop chunk w first last rem)[j]? =
      some (if j = 0 then first else last + chunk * (j - 1) + min (j - 1) rem,
            last + chunk * j + min j rem) := by
  induction w generalizing first last rem j with
  | zero => omega
  | succ w ih =>
    unfold partitionLoop
    cases j with
    | zero => simp
    | succ j =>
      have hj' : j < w := by omega
      have e1 : chunk * (j + 1) = chunk * j + chunk := Nat.mul_succ _ _
      by_cases hr : rem ≠ 0
      · rw [if_pos hr, List.getElem?_cons_succ, ih _ _ _ _ hj']
        cases j with
        | zero =>
          simp only [if_true, Nat.mul_zero, Nat.mul_one, Nat.zero_add, Nat.add_zero,
            Nat.zero_min, Nat.add_one_ne_zero, if_false, Nat.add_sub_cancel, Nat.sub_self,
            Option.some.injEq, Prod.mk.injEq, true_and]
          omega
        | succ i =>
          have e2 : chunk * (i + 1) = chunk * i + chunk := Nat.mul_succ _ _
          have e3 : chunk * (i + 1 + 1) = chunk * i + chunk + chunk := by
            rw [Nat.mul_succ, e2]
          simp only [Nat.add_one_ne_zero, if_false, Nat.add_sub_cancel, e2, e3,
            Option.some.injEq, Prod.mk.injEq]
          constructor <;> omega
      · have hr0 : rem = 0 := by omega
        rw [if_neg hr, List.getElem?_cons_succ, ih _ _ _ _ hj']
        subst hr0
        cases j with
        | zero =>
          simp only [if_true, Nat.mul_zero, Nat.mul_one, Nat.zero_add, Nat.add_zero,
            Nat.min_zero, Nat.add_one_ne_zero, if_false, Nat.add_sub_cancel, Nat.sub_self,
            Option.some.injEq, Prod.mk.injEq, true_and]
        | succ i =>
          have e2 : chunk * (i + 1) = chunk * i + chunk := Nat.mul_succ _ _
          have e3 : chunk * (i + 1 + 1) = chunk * i + chunk + chunk := by
            rw [Nat.mul_succ, e2]
          simp only [Nat.add_one_ne_zero, if_false, Nat.add_sub_cancel, e2, e3,
            Option.some.injEq, Prod.mk.injEq, Nat.min_zero]
          constructor <;> omega

theorem partitions_getElem? (T W j : Nat) (hj : j < W) :
    (partitions T W)[j]? = some (partStart T W j, partStart T W (j + 1)) := by
  unfold partitions
  rw [partitionLoop_getElem? _ _ _ _ _ _ hj]
  unfold partStart
  have e1 : T / W * (j + 1) = T / W * j + T / W := Nat.mul_succ _ _
  cases j with
  | zero => simp
  | succ i =>
    have e2 : T / W * (i + 1) = T / W * i + T / W := Nat.mul_succ _ _
    have e3 : T / W * (i + 1 + 1) = T / W * i + T / W + T / W := by
      rw [Nat.mul_succ, e2]
    simp only [Nat.add_one_ne_zero, if_false, Nat.add_sub_cancel, e2, e3,
      Option.some.injEq, Prod.mk.injEq]
    constructor <;> omega

theorem partStart_mono (T W j : Nat) : partStart T W j ≤ partStart T W (j + 1) := by
  unfold partStart
  cases j with
  | zero => simp
  | succ j =>
    simp only [Nat.add_one_ne_zero, if_false, Nat.add_sub_cancel]
    rw [Nat.mul_add (T / W) (j + 1) 1]
    have : min j (T % W) ≤ min (j + 1) (T % W) := by omega
    omega

theorem partStart_last (T W : Nat) (hW : 1 ≤ W) : partStart T W W = T := by
  unfold partStart
  have h1 : T % W < W := Nat.mod_lt _ (by omega)
  have h2 : min (W - 1) (T % W) = T % W := by omega
  have h3 : T / W * W + T % W = T := by
    rw [Nat.mul_comm]; exact Nat.div_add_mod T W
  rw [if_neg (by omega), h2, h3]

theorem partitions_eq_map (T W : Nat) :
    partitions T W =
      (List.range W).map (fun j => (partStart T W j, partStart T W (j + 1))) := by
  apply List.ext_getElem?
  intro j
  by_cases hj : j < W
  · rw [partitions_getElem? T W j hj, List.getElem?_map, List.getElem?_range hj]
    rfl
  · have h1 : (partitions T W).length ≤ j := by
      unfold partitions; rw [partitionLoop_length]; omega
    rw [List.getElem?_eq_none h1, List.getElem?_eq_none (by simpa using Nat.le_of_not_lt hj)]

theorem partStart_le_of_le (T W : Nat) {i j : Nat} (h : i ≤ j) :
    partStart T W i ≤ partStart T W j := by
  induction j with
  | zero =>
    have : i = 0 := by omega
    subst this; exact Nat.le_refl _
  | succ j ih =>
    by_cases hij : i = j + 1
    · subst hij; exact Nat.le_refl _
    · exact Nat.le_trans (ih (by omega)) (partStart_mono T W j)

/-- Size of the range of worker `j + 1`: `chunk` for the first worker, `chunk + 1` for the next
`T % W` workers, `chunk` afterwards. -/
theorem partStart_succ_sub (T W j : Nat) :
    partStart T W (j + 1) - partStart T W j =
      if j = 0 then T / W else if j ≤ T % W then T / W + 1 else T / W := by
  unfold partStart
  generalize T / W = c
  generalize T % W = r
  cases j with
  | zero => simp
  | succ i =>
    have e2 : c * (i + 1) = c * i + c := Nat.mul_succ _ _
    have e3 : c * (i + 1 + 1) = c * i + c + c := by
      rw [Nat.mul_succ, e2]
    simp only [Nat.add_one_ne_zero, if_false, Nat.add_sub_cancel, e2, e3]
    split <;> omega

/-- A monotone walk from `0` to `T` passes every `x < T` in exactly one step. -/
theorem exists_step_of_lt (f : Nat → Nat) (W : Nat) (h0 : f 0 = 0) (x : Nat)
    (hx : x < f W) : ∃ i, i < W ∧ f i ≤ x ∧ x < f (i + 1) := by
  induction W with
  | zero => omega
  | succ W ih =>
    by_cases h : x < f W
    · obtain ⟨i, hi, h1, h2⟩ := ih h
      exact ⟨i, by omega, h1, h2⟩
    · exact ⟨W, by omega, by omega, hx⟩

theorem mem_partitions {T W : Nat} {p : Nat × Nat} (hp : p ∈ partitions T W) :
    ∃ j, j < W ∧ p = (partStart T W j, partStart T W (j + 1)) := by
  rw [partitions_eq_map] at hp
  obtain ⟨j, hj, rfl⟩ := List.mem_map.1 hp
  exact ⟨j, List.mem_range.1 hj, rfl⟩

theorem partitions_getElem?_some {T W i : Nat} {p : Nat × Nat}
    (h : (partitions T W)[i]? = some p) :
    i < W ∧ p = (partStart T W i, partStart T W (i + 1)) := by
  have hi : i < W := by
    by_contra hn
    have h1 : (partitions T W).length ≤ i := by
      unfold partitions; rw [partitionLoop_length]; omega
    rw [List.getElem?_eq_none h1] at h
    exact Option.noConfusion h
  rw [partitions_getElem? T W i hi] at h
  exact ⟨hi, (Option.some.inj h).symm⟩

theorem rangeSize_partitions_bounds {T W : Nat} {p : Nat × Nat} (hp : p ∈ partitions T W) :
    T / W ≤ rangeSize p ∧ rangeSize p ≤ T / W + 1 := by
  obtain ⟨j, _, rfl⟩ := mem_partitions hp
  unfold rangeSize
  simp only
  rw [partStart_succ_sub]
  constructor <;> split <;> try split
  all_goals omega

/-- C3: for every total `T` and worker count `W >= 1` the partition loop of `main` hands out
exactly `W` half-open ranges; the first starts at `0`, the last ends at `T`, each starts where
the previous one ends, starts are ascending, every index below `T` lies in exactly one range and
no range contains an index outside `[0, T)`, and any two sizes differ by at most one. -/
theorem partitions_cover (T W : Nat) (hW : 1 ≤ W) :
    (partitions T W).length = W ∧
    (partitions T W).head?.map Prod.fst = some 0 ∧
    (partitions T W).getLast?.map Prod.snd = some T ∧
    List.Chain' (fun p q => p.2 = q.1) (partitions T W) ∧
    List.Pairwise (fun p q => p.1 ≤ q.1) (partitions T W) ∧
    (∀ p ∈ partitions T W, p.1 ≤ p.2) ∧
    (∀ x, x < T →
      ∃! i : Nat, ∃ p : Nat × Nat, (partitions T W)[i]? = some p ∧ p.1 ≤ x ∧ x < p.2) ∧
    (∀ (x i : Nat) (p : Nat × Nat),
      (partitions T W)[i]? = some p → p.1 ≤ x → x < p.2 → x < T) ∧
    (∀ p ∈ partitions T W, ∀ q ∈ partitions T W, rangeSize p ≤ rangeSize q + 1) := by
  have hlen : (partitions T W).length = W := by
    unfold partitions; rw [partitionLoop_length]
  refine ⟨hlen, ?_, ?_, ?_, ?_, ?_, ?_, ?_, ?_⟩
  · rw [List.head?_eq_getElem?, partitions_getElem? T W 0 (by omega)]
    rfl
  · rw [List.getLast?_eq_getElem?, hlen, partitions_getElem? T W (W - 1) (by omega)]
    have : W - 1 + 1 = W := by omega
    rw [this, Option.map_some', partStart_last T W hW]
  · rw [partitions_eq_map, List.chain'_map]
    obtain ⟨n, rfl⟩ : ∃ n, W = n + 1 := ⟨W - 1, by omega⟩
    rw [List.chain'_range_succ]
    intro m _
    rfl
  · rw [List.pairwise_iff_getElem]
    intro i j hi hj hij
    have h1 := partitions_getElem? T W i (by omega)
    have h2 := partitions_getElem? T W j (by omega)
    rw [List.getElem?_eq_getElem hi] at h1
    rw [List.getElem?_eq_getElem hj] at h2
    rw [Option.some.inj h1, Option.some.inj h2]
    exact partStart_le_of_le T W (Nat.le_of_lt hij)
  · intro p hp
    obtain ⟨j, _, rfl⟩ := mem_partitions hp
    exact partStart_mono T W j
  · intro x hx
    have hx' : x < partStart T W W := by rw [partStart_last T W hW]; exact hx
    obtain ⟨i, hi, h1, h2⟩ :=
      exists_step_of_lt (partStart T W) W (by unfold partStart; simp) x hx'
    refine ⟨i, ⟨_, partitions_getElem? T W i hi, h1, h2⟩, ?_⟩
    rintro j ⟨q, hq, hq1, hq2⟩
    obtain ⟨_, rfl⟩ := partitions_getElem?_some hq
    simp only at hq1 hq2
    by_contra hne
    rcases Nat.lt_or_gt_of_ne hne with hlt | hgt
    · have := partStart_le_of_le T W (show j + 1 ≤ i by omega)
      omega
    · have := partStart_le_of_le T W (show i + 1 ≤ j by omega)
      omega
  · intro x i p hp _ h2
    obtain ⟨hi, rfl⟩ := partitions_getElem?_some hp
    simp only at h2
    have := partStart_le_of_le T W (show i + 1 ≤ W by omega)
    rw [partStart_last T W hW] at this
    omega
  · intro p hp q hq
    have h1 := rangeSize_partitions_bounds hp
    have h2 := rangeSize_partitions_bounds hq
    omega

/-- Witness for `partitions_cover` at `T = 10`, `W = 3`. -/
theorem partitions_cover_witness :
    1 ≤ 3 ∧ (partitions 10 3).length = 3 ∧
      (partitions 10 3).getLast?.map Prod.snd = some 10 :=
  ⟨by decide, (partitions_cover 10 3 (by decide)).1, (partitions_cover 10 3 (by decide)).2.2.1⟩

/-- C4, as stated, fails: for `T = 10`, `W = 3` the loop hands out `[0,3)`, `[3,7)`, `[7,10)`
(sizes 3, 4, 3), not `[0,4)`, `[4,7)`, `[7,10)`; the first worker's range is not one of the
larger ones although `0 < T % W`. -/
theorem partitions_first_range_not_larger :
    partitions 10 3 = [(0, 3), (3, 7), (7, 10)] ∧
      (partitions 10 3).map rangeSize = [3, 4, 3] ∧
      partitions 10 3 ≠ [(0, 4), (4, 7), (7, 10)] ∧
      (0 < 10 % 3 ∧ (partitions 10 3)[0]? = some (0, 3) ∧ rangeSize (0, 3) ≠ 10 / 3 + 1) := by
  decide

/-- C4 (amended): with `base = T / W` and `r = T % W`, the range of worker `i + 1` has size
`base` for the first worker, `base + 1` for the `r` workers after it and `base` for the rest;
for `T = 10`, `W = 3` the ranges are `[0,3)`, `[3,7)`, `[7,10)`. -/
theorem partitions_sizes (T W i : Nat) (hi : i < W) :
    (∃ p, (partitions T W)[i]? = some p ∧
      rangeSize p = if i = 0 then T / W else if i ≤ T % W then T / W + 1 else T / W) ∧
    partitions 10 3 = [(0, 3), (3, 7), (7, 10)] := by
  refine ⟨⟨_, partitions_getElem? T W i hi, ?_⟩, by decide⟩
  unfold rangeSize
  exact partStart_succ_sub T W i

/-- Witness for `partitions_sizes`: the second of three workers over ten candidates. -/
theorem partitions_sizes_witness :
    (∃ p, (partitions 10 3)[1]? = some p ∧
      rangeSize p = if 1 = 0 then 10 / 3 else if 1 ≤ 10 % 3 then 10 / 3 + 1 else 10 / 3) :=
  (partitions_sizes 10 3 1 (by decide)).1

/-! ### Rendering -/

theorem toupper_cases (c : Char) :
    toupper c = c ∨ (65 ≤ (toupper c).toNat ∧ (toupper c).toNat ≤ 90) := by
  unfold toupper
  by_cases h : 97 ≤ c.toNat ∧ c.toNat ≤ 122
  · right
    rw [if_pos h]
    obtain ⟨h1, h2⟩ := h
    generalize c.toNat = n at h1 h2
    interval_cases n <;> decide
  · left
    rw [if_neg h]

theorem toupper_idem (c : Char) : toupper (toupper c) = toupper c := by
  rcases toupper_cases c with h | h
  · rw [h, h]
  · generalize toupper c = d at h
    unfold toupper
    rw [if_neg (by omega)]

theorem isspace_toupper (c : Char) : isspace (toupper c) = isspace c := by
  rcases toupper_cases c with h | h
  · rw [h]
  · have h1 : isspace (toupper c) = false := by
      unfold isspace; simp; omega
    rw [h1]
    unfold toupper at h
    by_cases hc : 97 ≤ c.toNat ∧ c.toNat ≤ 122
    · unfold isspace; simp; omega
    · rw [if_neg hc] at h
      unfold isspace; simp; omega

theorem intercalate_cons (x : List Char) (rest : List (List Char)) :
    [' '].intercalate (x :: rest) = x ++ (rest.map (fun w => ' ' :: w)).flatten := by
  induction rest generalizing x with
  | nil => simp [List.intercalate]
  | cons y rest ih =>
    have h := ih y
    simp only [List.intercalate] at h ⊢
    simp only [List.intersperse_cons₂, List.flatten_cons, List.map_cons, h]
    simp

theorem joinOut_concat (init : List (List Char)) (x : List Char) :
    joinOut (init ++ [x]) = (init.map (fun w => w ++ [' '])).flatten ++ x := by
  unfold joinOut
  rw [List.dropLast_concat, List.getLastD_concat]

theorem intercalate_concat (init : List (List Char)) (x : List Char) :
    [' '].intercalate (init ++ [x]) = (init.map (fun w => w ++ [' '])).flatten ++ x := by
  induction init with
  | nil => simp [List.intercalate]
  | cons y init ih =>
    rw [List.cons_append, intercalate_cons]
    cases init with
    | nil => simp
    | cons z init =>
      rw [List.cons_append, intercalate_cons] at ih
      have e : (List.map (fun w => w ++ [' ']) (y :: z :: init)).flatten ++ x =
          y ++ ' ' :: ((List.map (fun w => w ++ [' ']) (z :: init)).flatten ++ x) := by
        simp
      rw [e, ← ih]
      simp

theorem joinOut_eq_intercalate (ws : List (List Char)) :
    joinOut ws = [' '].intercalate ws := by
  rcases List.eq_nil_or_concat ws with rfl | ⟨init, x, rfl⟩
  · simp [joinOut, List.intercalate]
  · rw [List.concat_eq_append, joinOut_concat, intercalate_concat]

theorem tokens_append_word (w : List Char) (hw : ∀ c ∈ w, isspace c = false)
    (cur rest : List Char) : tokens cur (w ++ rest) = tokens (cur ++ w) rest := by
  induction w generalizing cur with
  | nil => simp
  | cons c w ih =>
    have hc : isspace c = false := hw c (List.mem_cons_self _ _)
    rw [List.cons_append, tokens, hc]
    simp only [Bool.false_eq_true, if_false]
    rw [ih (fun d hd => hw d (List.mem_cons_of_mem _ hd))]
    simp

theorem tokens_intercalate (ws : List (List Char)) (hg : GoodWords ws) :
    tokens [] ([' '].intercalate ws) = ws := by
  induction ws with
  | nil => simp [List.intercalate, tokens]
  | cons x rest ih =>
    have hx := hg x (List.mem_cons_self _ _)
    have hrest : GoodWords rest := fun w hw => hg w (List.mem_cons_of_mem _ hw)
    have hxe : x.isEmpty = false := by
      cases x with
      | nil => exact absurd rfl hx.1
      | cons _ _ => rfl
    cases rest with
    | nil =>
      have h1 : [' '].intercalate [x] = x ++ [] := by simp [List.intercalate]
      rw [h1, tokens_append_word x hx.2, List.nil_append, tokens, hxe]
      simp
    | cons y rest =>
      have h1 : [' '].intercalate (x :: y :: rest) = x ++ ' ' :: [' '].intercalate (y :: rest) := by
        rw [intercalate_cons, intercalate_cons]; simp
      rw [h1, tokens_append_word x hx.2, List.nil_append, tokens, hxe, ih hrest]
      simp [isspace]

theorem modifyLast_cons_cons {α : Type} (f : α → α) (a b : α) (t : List α) :
    List.modifyLast f (a :: b :: t) = a :: List.modifyLast f (b :: t) := by
  have := List.modifyLast_append f [a] (b :: t) (by simp)
  simpa using this

theorem modifyLast_singleton {α : Type} (f : α → α) (a : α) :
    List.modifyLast f [a] = [f a] := by
  have := List.modifyLast_append_one f a []
  simpa using this

theorem modifyHead_modifyLast_comm {α : Type} (f : α → α) (l : List α) :
    List.modifyHead f (List.modifyLast f l) = List.modifyLast f (List.modifyHead f l) := by
  cases l with
  | nil => simp [List.modifyLast, List.modifyLast.go]
  | cons a t =>
    cases t with
    | nil => simp [modifyLast_singleton]
    | cons b t => simp [modifyLast_cons_cons]

theorem modifyLast_idem {α : Type} (f : α → α) (hf : ∀ a, f (f a) = f a) (l : List α) :
    List.modifyLast f (List.modifyLast f l) = List.modifyLast f l := by
  rcases List.eq_nil_or_concat l with rfl | ⟨init, x, rfl⟩
  · simp [List.modifyLast, List.modifyLast.go]
  · simp [List.modifyLast_append_one, hf]

theorem modifyHead_idem {α : Type} (f : α → α) (hf : ∀ a, f (f a) = f a) (l : List α) :
    List.modifyHead f (List.modifyHead f l) = List.modifyHead f l := by
  cases l <;> simp [hf]

theorem goodWords_modifyHead (g : List Char → List Char) (ws : List (List Char))
    (hg : ∀ w, (w ≠ [] ∧ ∀ c ∈ w, isspace c = false) →
      (g w ≠ [] ∧ ∀ c ∈ g w, isspace c = false))
    (h : GoodWords ws) : GoodWords (ws.modifyHead g) := by
  cases ws with
  | nil => exact h
  | cons x rest =>
    intro w hw
    rw [List.modifyHead_cons] at hw
    rcases List.mem_cons.1 hw with rfl | hw
    · exact hg x (h x (List.mem_cons_self _ _))
    · exact h w (List.mem_cons_of_mem _ hw)

theorem goodWords_modifyLast (g : List Char → List Char) (ws : List (List Char))
    (hg : ∀ w, (w ≠ [] ∧ ∀ c ∈ w, isspace c = false) →
      (g w ≠ [] ∧ ∀ c ∈ g w, isspace c = false))
    (h : GoodWords ws) : GoodWords (ws.modifyLast g) := by
  rcases List.eq_nil_or_concat ws with rfl | ⟨init, x, rfl⟩
  · simpa [List.modifyLast, List.modifyLast.go] using h
  · rw [List.concat_eq_append] at h ⊢
    rw [List.modifyLast_append_one]
    intro w hw
    rcases List.mem_append.1 hw with hw | hw
    · exact h w (List.mem_append_left _ hw)
    · rw [List.mem_singleton] at hw
      subst hw
      exact hg x (h x (List.mem_append_right _ (List.mem_singleton_self _)))

theorem good_modifyHead_toupper (w : List Char)
    (h : w ≠ [] ∧ ∀ c ∈ w, isspace c = false) :
    List.modifyHead toupper w ≠ [] ∧ ∀ c ∈ List.modifyHead toupper w, isspace c = false := by
  cases w with
  | nil => exact absurd rfl h.1
  | cons a t =>
    rw [List.modifyHead_cons]
    refine ⟨List.cons_ne_nil _ _, ?_⟩
    intro c hc
    rcases List.mem_cons.1 hc with rfl | hc
    · rw [isspace_toupper]; exact h.2 a (List.mem_cons_self _ _)
    · exact h.2 c (List.mem_cons_of_mem _ hc)

theorem good_modifyLast_toupper (w : List Char)
    (h : w ≠ [] ∧ ∀ c ∈ w, isspace c = false) :
    List.modifyLast toupper w ≠ [] ∧ ∀ c ∈ List.modifyLast toupper w, isspace c = false := by
  rcases List.eq_nil_or_concat w with rfl | ⟨init, x, rfl⟩
  · exact absurd rfl h.1
  · rw [List.concat_eq_append] at h ⊢
    rw [List.modifyLast_append_one]
    refine ⟨by simp, ?_⟩
    intro c hc
    rcases List.mem_append.1 hc with hc | hc
    · exact h.2 c (List.mem_append_left _ hc)
    · rw [List.mem_singleton] at hc
      subst hc
      rw [isspace_toupper]
      exact h.2 x (List.mem_append_right _ (List.mem_singleton_self _))

theorem goodWords_upperFirst {ws : List (List Char)} (h : GoodWords ws) :
    GoodWords (upperFirst ws) :=
  goodWords_modifyHead _ ws good_modifyHead_toupper h

theorem goodWords_upperLast {ws : List (List Char)} (h : GoodWords ws) :
    GoodWords (upperLast ws) :=
  goodWords_modifyLast _ ws good_modifyLast_toupper h

theorem upperFirst_ne_nil {ws : List (List Char)} (h : ws ≠ []) : upperFirst ws ≠ [] := by
  cases ws with
  | nil => exact absurd rfl h
  | cons x rest => simp [upperFirst]

theorem upperLast_ne_nil {ws : List (List Char)} (h : ws ≠ []) : upperLast ws ≠ [] := by
  rcases List.eq_nil_or_concat ws with rfl | ⟨init, x, rfl⟩
  · exact absurd rfl h
  · simp [upperLast, List.modifyLast_append_one]

theorem intercalate_upperFirst (ws : List (List Char)) (hne : ws ≠ []) (hg : GoodWords ws) :
    [' '].intercalate (upperFirst ws) = List.modifyHead toupper ([' '].intercalate ws) := by
  cases ws with
  | nil => exact absurd rfl hne
  | cons x rest =>
    have hx := (hg x (List.mem_cons_self _ _)).1
    cases x with
    | nil => exact absurd rfl hx
    | cons c w =>
      unfold upperFirst
      rw [List.modifyHead_cons, List.modifyHead_cons, intercalate_cons, intercalate_cons]
      rfl

theorem intercalate_upperLast (ws : List (List Char)) (hne : ws ≠ []) (hg : GoodWords ws) :
    [' '].intercalate (upperLast ws) = List.modifyLast toupper ([' '].intercalate ws) := by
  rcases List.eq_nil_or_concat ws with rfl | ⟨init, x, rfl⟩
  · exact absurd rfl hne
  · rw [List.concat_eq_append] at hg ⊢
    have hx := (hg x (List.mem_append_right _ (List.mem_singleton_self _))).1
    rcases List.eq_nil_or_concat x with rfl | ⟨w, c, rfl⟩
    · exact absurd rfl hx
    · unfold upperLast
      rw [List.concat_eq_append, List.modifyLast_append_one, List.modifyLast_append_one,
        intercalate_concat, intercalate_concat, ← List.append_assoc, ← List.append_assoc,
        List.modifyLast_append_one]

theorem render_intercalate (v : Bool) (ws : List (List Char)) (hg : GoodWords ws) :
    render v ([' '].intercalate ws) = [' '].intercalate (applyCase v ws) := by
  unfold render
  rw [tokens_intercalate ws hg, joinOut_eq_intercalate]

theorem goodWords_applyCase (v : Bool) {ws : List (List Char)} (hg : GoodWords ws) :
    GoodWords (applyCase v ws) := by
  unfold applyCase
  split
  · exact goodWords_upperFirst hg
  · exact goodWords_upperLast (goodWords_upperFirst hg)

theorem applyCase_ne_nil (v : Bool) {ws : List (List Char)} (hne : ws ≠ []) :
    applyCase v ws ≠ [] := by
  unfold applyCase
  split
  · exact upperFirst_ne_nil hne
  · exact upperLast_ne_nil (upperFirst_ne_nil hne)

theorem length_modifyLast {α : Type} (f : α → α) (l : List α) :
    (List.modifyLast f l).length = l.length := by
  rcases List.eq_nil_or_concat l with rfl | ⟨init, x, rfl⟩
  · rfl
  · simp [List.modifyLast_append_one]

theorem length_applyCase (v : Bool) (ws : List (List Char)) :
    (applyCase v ws).length = ws.length := by
  have e : (List.modifyHead (List.modifyHead toupper) ws).length = ws.length := by
    cases ws <;> simp
  unfold applyCase upperFirst upperLast
  split
  · exact e
  · rw [length_modifyLast, e]

theorem render_true_eq (ws : List (List Char)) (hne : ws ≠ []) (hg : GoodWords ws) :
    render true ([' '].intercalate ws) = List.modifyHead toupper ([' '].intercalate ws) := by
  rw [render_intercalate true ws hg]
  exact intercalate_upperFirst ws hne hg

theorem render_false_eq (ws : List (List Char)) (hne : ws ≠ []) (hg : GoodWords ws) :
    render false ([' '].intercalate ws) =
      List.modifyLast toupper (List.modifyHead toupper ([' '].intercalate ws)) := by
  rw [render_intercalate false ws hg]
  have h1 : applyCase false ws = upperLast (upperFirst ws) := rfl
  rw [h1, intercalate_upperLast _ (upperFirst_ne_nil hne) (goodWords_upperFirst hg),
    intercalate_upperFirst ws hne hg]

/-- C5: for a raw candidate made of `k >= 1` non-empty, whitespace-free words joined by single
spaces, the passphrase `worker` builds is the raw string with its first character upper-cased
(`test_flag` true, Variant A), respectively with its first and its last character upper-cased
(`test_flag` false, Variant B); the first character of the raw string is the first character of
the first word and its last character the last character of the last word.  Every other
character and every separator is unchanged, and the output splits into the same number of
words. -/
theorem render_spec (ws : List (List Char)) (hne : ws ≠ [])
    (hg : ∀ w ∈ ws, w ≠ [] ∧ ∀ c ∈ w, isspace c = false) :
    render true ([' '].intercalate ws) = List.modifyHead toupper ([' '].intercalate ws) ∧
    render false ([' '].intercalate ws) =
      List.modifyLast toupper (List.modifyHead toupper ([' '].intercalate ws)) ∧
    render true ([' '].intercalate ws) =
      [' '].intercalate (ws.modifyHead (List.modifyHead toupper)) ∧
    render false ([' '].intercalate ws) =
      [' '].intercalate
        ((ws.modifyHead (List.modifyHead toupper)).modifyLast (List.modifyLast toupper)) ∧
    (∀ v, (tokens [] (render v ([' '].intercalate ws))).length = ws.length ∧
      (render v ([' '].intercalate ws)).length = ([' '].intercalate ws).length) := by
  refine ⟨render_true_eq ws hne hg, render_false_eq ws hne hg,
    render_intercalate true ws hg, render_intercalate false ws hg, ?_⟩
  intro v
  constructor
  · rw [render_intercalate v ws hg, tokens_intercalate _ (goodWords_applyCase v hg),
      length_applyCase]
  · cases v
    · rw [render_false_eq ws hne hg, length_modifyLast]
      cases [' '].intercalate ws <;> simp
    · rw [render_true_eq ws hne hg]
      cases [' '].intercalate ws <;> simp

/-- Witness for `render_spec`: under Variant A, `"a b"` renders as `"A b"` and `"b a"` as
`"B a"`. -/
theorem render_spec_witness :
    render true "a b".toList = "A b".toList ∧ render true "b a".toList = "B a".toList ∧
      render true ([' '].intercalate ["a".toList, "b".toList]) =
        List.modifyHead toupper ([' '].intercalate ["a".toList, "b".toList]) :=
  ⟨by decide, by decide,
    (render_spec ["a".toList, "b".toList] (by decide) (by decide)).1⟩

/-- C6: for both casing variants and every raw candidate of `k >= 1` non-empty whitespace-free
words joined by single spaces, rendering the rendered passphrase again changes nothing. -/
theorem render_idempotent (v : Bool) (ws : List (List Char)) (hne : ws ≠ [])
    (hg : ∀ w ∈ ws, w ≠ [] ∧ ∀ c ∈ w, isspace c = false) :
    render v (render v ([' '].intercalate ws)) = render v ([' '].intercalate ws) := by
  have h1 := render_intercalate v ws hg
  have hg' := goodWords_applyCase v hg
  have hne' := applyCase_ne_nil v hne
  cases v
  · rw [h1, render_false_eq _ hne' hg', ← h1, render_false_eq ws hne hg,
      modifyHead_modifyLast_comm, modifyHead_idem _ toupper_idem,
      modifyLast_idem _ toupper_idem]
  · rw [h1, render_true_eq _ hne' hg', ← h1, render_true_eq ws hne hg,
      modifyHead_idem _ toupper_idem]

/-- Witness for `render_idempotent`: Variant B on `"a b"`. -/
theorem render_idempotent_witness :
    render false (render false ([' '].intercalate ["a".toList, "b".toList])) =
      render false ([' '].intercalate ["a".toList, "b".toList]) :=
  render_idempotent false ["a".toList, "b".toList] (by decide) (by decide)

/-- The words extracted from a stream are never empty and hold no whitespace. -/
theorem goodWords_tokens (s cur : List Char) (hcur : ∀ c ∈ cur, isspace c = false) :
    GoodWords (tokens cur s) := by
  induction s generalizing cur with
  | nil =>
    intro w hw
    unfold tokens at hw
    cases cur with
    | nil => simp at hw
    | cons a t =>
      simp only [List.isEmpty_cons, Bool.false_eq_true, if_false, List.mem_singleton] at hw
      rw [hw]
      exact ⟨List.cons_ne_nil _ _, hcur⟩
  | cons c cs ih =>
    intro w hw
    unfold tokens at hw
    by_cases hc : isspace c = true
    · rw [if_pos hc] at hw
      cases cur with
      | nil =>
        simp only [List.isEmpty_nil, if_true] at hw
        exact ih [] (fun d hd => absurd hd (List.not_mem_nil d)) w hw
      | cons a t =>
        simp only [List.isEmpty_cons, Bool.false_eq_true, if_false] at hw
        rcases List.mem_cons.1 hw with rfl | hw
        · exact ⟨List.cons_ne_nil _ _, hcur⟩
        · exact ih [] (fun d hd => absurd hd (List.not_mem_nil d)) w hw
    · rw [if_neg hc] at hw
      have hc' : isspace c = false := by
        cases h : isspace c
        · rfl
        · exact absurd h hc
      refine ih (cur ++ [c]) ?_ w hw
      intro d hd
      rcases List.mem_append.1 hd with hd | hd
      · exact hcur d hd
      · rw [List.mem_singleton] at hd
        rw [hd]; exact hc'

/-- A candidate that holds a word is rendered to a non-empty passphrase. -/
theorem render_ne_nil (v : Bool) (raw : List Char) (h : tokens [] raw ≠ []) :
    render v raw ≠ [] := by
  have hg : GoodWords (tokens [] raw) :=
    goodWords_tokens raw [] (fun d hd => absurd hd (List.not_mem_nil d))
  have hg' := goodWords_applyCase v hg
  have hne' := applyCase_ne_nil v h
  unfold render
  rw [joinOut_eq_intercalate]
  cases hw : applyCase v (tokens [] raw) with
  | nil => exact absurd hw hne'
  | cons x rest =>
    rw [hw] at hg'
    have hx := (hg' x (List.mem_cons_self _ _)).1
    rw [intercalate_cons]
    intro e
    exact hx (List.append_eq_nil.1 e).1

/-! ### The loop of `worker` -/

theorem workerInv_init (verify : Nat → List Char → Int) :
    WorkerInv verify 0 WorkerState.init where
  len := rfl
  count := rfl
  rejected := fun j _ h _ => absurd h (by omega)
  last_rejected := fun _ j pass h => by simp [WorkerState.init] at h
  accepted := fun h => by simp [WorkerState.init] at h
  no_report := fun _ => rfl

theorem workerInv_iteration (test_flag : Bool) (batch_upd : Nat)
    (verify : Nat → List Char → Int) (i : Nat) (raw : List Char) (st : WorkerState)
    (h : WorkerInv verify i st) (hflag : st.worker_terminate = false) :
    WorkerInv verify (i + 1) (iteration test_flag batch_upd verify i raw st) := by
  have hlen := h.len
  have hget : ∀ j, (st.calls ++ [render test_flag raw])[j]? =
      if j < i then st.calls[j]? else if j = i then some (render test_flag raw) else none := by
    intro j
    by_cases hj : j < i
    · rw [if_pos hj, List.getElem?_append_left (by omega)]
    · rw [if_neg hj, List.getElem?_append_right (by omega), hlen]
      by_cases hji : j = i
      · subst hji; simp
      · rw [if_neg hji]
        have : j - i = (j - i - 1) + 1 := by omega
        rw [this]; rfl
  constructor
  · simp [iteration, hlen]
  · have := h.count
    simp only [iteration]
    split <;> omega
  · intro j pass hj hp
    simp only [iteration] at hp
    rw [hget, if_pos (by omega)] at hp
    exact h.last_rejected hflag j pass hp
  · intro hwt j pass hp
    simp only [iteration, hflag, Bool.false_or, decide_eq_false_iff_not, not_le] at hwt hp
    rw [hget] at hp
    by_cases hj : j < i
    · rw [if_pos hj] at hp
      exact h.last_rejected hflag j pass hp
    · rw [if_neg hj] at hp
      by_cases hji : j = i
      · rw [if_pos hji] at hp
        subst hji
        rw [← Option.some.inj hp]
        exact hwt
      · rw [if_neg hji] at hp
        exact Option.noConfusion hp
  · intro hwt
    simp only [iteration, hflag, Bool.false_or, decide_eq_true_eq] at hwt ⊢
    refine ⟨i, render test_flag raw, rfl, ?_, hwt, ?_⟩
    · rw [hget, if_neg (by omega), if_pos rfl]
    · rw [if_pos hwt, h.no_report hflag]; rfl
  · intro hwt
    simp only [iteration, hflag, Bool.false_or, decide_eq_false_iff_not, not_le] at hwt ⊢
    rw [if_neg (by omega)]
    exact h.no_report hflag

theorem workerInv_loop (test_flag : Bool) (batch_upd : Nat) (verify : Nat → List Char → Int)
    (ext : Nat → Bool) (part : List (List Char)) (i : Nat) (st : WorkerState)
    (h : WorkerInv verify i st) :
    WorkerInv verify (workerLoop test_flag batch_upd verify ext i part st).calls.length
      (workerLoop test_flag batch_upd verify ext i part st) := by
  induction part generalizing i st with
  | nil => simpa [workerLoop, h.len] using h
  | cons raw rest ih =>
    unfold workerLoop
    by_cases hf : (st.worker_terminate || ext i) = true
    · rw [if_pos hf, h.len]; exact h
    · rw [if_neg hf]
      have hflag : st.worker_terminate = false := by
        cases hw : st.worker_terminate
        · rfl
        · rw [hw] at hf; simp at hf
      exact ih (i + 1) _ (workerInv_iteration test_flag batch_upd verify i raw st h hflag)

theorem workerLoop_calls_prefix (test_flag : Bool) (batch_upd : Nat)
    (verify : Nat → List Char → Int) (ext : Nat → Bool) (part : List (List Char)) (i : Nat)
    (st : WorkerState) :
    ∃ m, (workerLoop test_flag batch_upd verify ext i part st).calls =
      st.calls ++ (part.map (render test_flag)).take m := by
  induction part generalizing i st with
  | nil => exact ⟨0, by simp [workerLoop]⟩
  | cons raw rest ih =>
    unfold workerLoop
    by_cases hf : (st.worker_terminate || ext i) = true
    · rw [if_pos hf]; exact ⟨0, by simp⟩
    · rw [if_neg hf]
      obtain ⟨m, hm⟩ := ih (i + 1) (iteration test_flag batch_upd verify i raw st)
      refine ⟨m + 1, ?_⟩
      rw [hm]
      simp [iteration]

/-- When no other thread sets the flag and the worker itself has not set it at exit, every
candidate of the partition was passed to the verifier. -/
theorem workerLoop_calls_all (test_flag : Bool) (batch_upd : Nat)
    (verify : Nat → List Char → Int) (ext : Nat → Bool) (hext : ∀ i, ext i = false)
    (part : List (List Char)) (i : Nat) (st : WorkerState)
    (hend : (workerLoop test_flag batch_upd verify ext i part st).worker_terminate = false) :
    (workerLoop test_flag batch_upd verify ext i part st).calls =
      st.calls ++ part.map (render test_flag) := by
  induction part generalizing i st with
  | nil => simp [workerLoop]
  | cons raw rest ih =>
    unfold workerLoop at hend ⊢
    by_cases hf : (st.worker_terminate || ext i) = true
    · rw [if_pos hf] at hend
      rw [hend, hext i] at hf
      simp at hf
    · rw [if_neg hf] at hend ⊢
      rw [ih (i + 1) _ hend]
      simp [iteration]

/-- Once the flag is seen set at the start of iteration `i0`, neither that candidate nor a later
one is passed to the verifier. -/
theorem workerLoop_calls_le (test_flag : Bool) (batch_upd : Nat)
    (verify : Nat → List Char → Int) (ext : Nat → Bool) (i0 : Nat) (hext : ext i0 = true)
    (part : List (List Char)) (i : Nat) (st : WorkerState) (hlen : st.calls.length = i)
    (hi : i ≤ i0) :
    (workerLoop test_flag batch_upd verify ext i part st).calls.length ≤ i0 := by
  induction part generalizing i st with
  | nil => simp only [workerLoop]; omega
  | cons raw rest ih =>
    unfold workerLoop
    by_cases hf : (st.worker_terminate || ext i) = true
    · rw [if_pos hf]; omega
    · rw [if_neg hf]
      have hne : i ≠ i0 := by
        rintro rfl
        rw [hext] at hf
        simp at hf
      exact ih (i + 1) _ (by simp [iteration, hlen]) (by omega)

theorem worker_inv (test_flag : Bool) (batch_upd : Nat) (init_rc load_rc : Int)
    (verify : Nat → List Char → Int) (ext : Nat → Bool) (part : List (List Char)) :
    WorkerInv verify (worker test_flag batch_upd init_rc load_rc verify ext part).calls.length
      (workerLoop test_flag batch_upd verify ext 0 part WorkerState.init) :=
  workerInv_loop test_flag batch_upd verify ext part 0 _ (workerInv_init verify)

theorem luks_done_eq_calls (test_flag : Bool) (batch_upd : Nat) (init_rc load_rc : Int)
    (verify : Nat → List Char → Int) (ext : Nat → Bool) (part : List (List Char)) :
    (worker test_flag batch_upd init_rc load_rc verify ext part).luks_done =
      (worker test_flag batch_upd init_rc load_rc verify ext part).calls.length :=
  (worker_inv test_flag batch_upd init_rc load_rc verify ext part).count

/-- A worker whose verifier results are all negative and which never sees the flag set passes
every candidate of its partition to the verifier. -/
theorem calls_of_rejected (test_flag : Bool) (batch_upd : Nat) (init_rc load_rc : Int)
    (verify : Nat → List Char → Int) (ext : Nat → Bool) (part : List (List Char))
    (hrej : ∀ i pass, verify i pass < 0) (hext : ∀ i, ext i = false) :
    (worker test_flag batch_upd init_rc load_rc verify ext part).calls =
      part.map (render test_flag) := by
  have hinv := worker_inv test_flag batch_upd init_rc load_rc verify ext part
  have hend : (workerLoop test_flag batch_upd verify ext 0 part
      WorkerState.init).worker_terminate = false := by
    cases hw : (workerLoop test_flag batch_upd verify ext 0 part
      WorkerState.init).worker_terminate
    · rfl
    · obtain ⟨j, pass, _, _, hacc, _⟩ := hinv.accepted hw
      have := hrej j pass
      omega
  have := workerLoop_calls_all test_flag batch_upd verify ext hext part 0 _ hend
  simpa [worker, WorkerState.init] using this

theorem sum_range_sub (f : Nat → Nat) (hf : ∀ j, f j ≤ f (j + 1)) (W : Nat) :
    ((List.range W).map (fun j => f (j + 1) - f j)).sum = f W - f 0 := by
  have hmono : ∀ W, f 0 ≤ f W := by
    intro W
    induction W with
    | zero => exact Nat.le_refl _
    | succ W ih => exact Nat.le_trans ih (hf W)
  induction W with
  | zero => simp
  | succ W ih =>
    rw [List.range_succ, List.map_append, List.sum_append, ih]
    have := hf W
    have := hmono W
    simp only [List.map_cons, List.map_nil, List.sum_cons, List.sum_nil]
    omega

theorem sum_rangeSize_partitions (T W : Nat) (hW : 1 ≤ W) :
    ((partitions T W).map rangeSize).sum = T := by
  rw [partitions_eq_map, List.map_map]
  have h := sum_range_sub (partStart T W) (partStart_mono T W) W
  rw [partStart_last T W hW] at h
  have h0 : partStart T W 0 = 0 := by simp [partStart]
  rw [h0] at h
  exact h

theorem length_slice (k_perms : List (List Char)) (p : Nat × Nat)
    (hp : p.2 ≤ k_perms.length) : (slice k_perms p).length = rangeSize p := by
  unfold slice rangeSize
  rw [List.length_take, List.length_drop]
  omega

theorem luksDoneAfterJoin_of_rejected (test_flag : Bool) (batch_upd : Nat)
    (verify : Nat → Nat → List Char → Int) (ext : Nat → Nat → Bool)
    (k_perms : List (List Char)) (W : Nat) (hW : 1 ≤ W)
    (hrej : ∀ w i pass, verify w i pass < 0) (hext : ∀ w i, ext w i = false) :
    luksDoneAfterJoin test_flag batch_upd verify ext k_perms W = k_perms.length := by
  unfold luksDoneAfterJoin
  have h1 : (partitions k_perms.length W).enum.map
      (fun jp => (worker test_flag batch_upd 0 0 (verify jp.1) (ext jp.1)
        (slice k_perms jp.2)).luks_done) =
      (partitions k_perms.length W).enum.map (fun jp => rangeSize jp.2) := by
    apply List.map_congr_left
    intro jp hjp
    have hmem := List.snd_mem_of_mem_enum hjp
    obtain ⟨j, hj, hjeq⟩ := mem_partitions hmem
    have hle : jp.2.2 ≤ k_perms.length := by
      rw [hjeq]
      have := partStart_le_of_le k_perms.length W (show j + 1 ≤ W by omega)
      rw [partStart_last _ W hW] at this
      exact this
    rw [luks_done_eq_calls, calls_of_rejected _ _ _ _ _ _ _ (hrej jp.1) (hext jp.1),
      List.length_map, length_slice _ _ hle]
  rw [h1]
  have h2 : (partitions k_perms.length W).enum.map (fun jp => rangeSize jp.2) =
      (partitions k_perms.length W).map rangeSize := by
    conv_rhs => rw [← List.enum_map_snd (partitions k_perms.length W)]
    rw [List.map_map]
    rfl
  rw [h2, sum_rangeSize_partitions _ W hW]

theorem iteration_congr (test_flag : Bool) (batch_upd : Nat)
    (verify verify' : Nat → List Char → Int)
    (hsign : ∀ i pass, 0 ≤ verify i pass ↔ 0 ≤ verify' i pass)
    (i : Nat) (raw : List Char) (st : WorkerState) :
    iteration test_flag batch_upd verify i raw st =
      iteration test_flag batch_upd verify' i raw st := by
  unfold iteration
  have h := hsign i (render test_flag raw)
  simp only [ge_iff_le, h]

theorem workerLoop_congr (test_flag : Bool) (batch_upd : Nat)
    (verify verify' : Nat → List Char → Int)
    (hsign : ∀ i pass, 0 ≤ verify i pass ↔ 0 ≤ verify' i pass)
    (ext : Nat → Bool) (part : List (List Char)) (i : Nat) (st : WorkerState) :
    workerLoop test_flag batch_upd verify ext i part st =
      workerLoop test_flag batch_upd verify' ext i part st := by
  induction part generalizing i st with
  | nil => rfl
  | cons raw rest ih =>
    unfold workerLoop
    rw [iteration_congr test_flag batch_upd verify verify' hsign, ih]

theorem iteration_intvl_lt (test_flag : Bool) (batch_upd : Nat) (hB : 1 ≤ batch_upd)
    (verify : Nat → List Char → Int) (i : Nat) (raw : List Char) (st : WorkerState)
    (h : st.intvl_count < batch_upd) :
    (iteration test_flag batch_upd verify i raw st).intvl_count < batch_upd := by
  simp only [iteration]
  split
  · omega
  · rename_i hne
    by_contra hge
    have e : st.intvl_count + 1 = batch_upd := by omega
    rw [e, Nat.mod_self] at hne
    exact hne rfl

theorem workerLoop_intvl_lt (test_flag : Bool) (batch_upd : Nat) (hB : 1 ≤ batch_upd)
    (verify : Nat → List Char → Int) (ext : Nat → Bool) (part : List (List Char)) (i : Nat)
    (st : WorkerState) (h : st.intvl_count < batch_upd) :
    (workerLoop test_flag batch_upd verify ext i part st).intvl_count < batch_upd := by
  induction part generalizing i st with
  | nil => exact h
  | cons raw rest ih =>
    unfold workerLoop
    split
    · exact h
    · exact ih (i + 1) _ (iteration_intvl_lt test_flag batch_upd hB verify i raw st h)

/-- C7: whatever the partition, the batch size `B >= 1`, the verifier results and the moments
at which the flag is seen set, what a worker has added to `luks_done` when it exits is the
number of verifier calls it made (the flush after the loop adds the fewer than `B` counts still
pending); so after all workers have exhausted their partitions with every candidate rejected,
`luks_done` is the total candidate count, for every `B`. -/
theorem worker_luks_done (test_flag : Bool) (batch_upd : Nat) (hB : 1 ≤ batch_upd)
    (init_rc load_rc : Int) (verify : Nat → List Char → Int) (ext : Nat → Bool)
    (part : List (List Char)) :
    (worker test_flag batch_upd init_rc load_rc verify ext part).luks_done =
      (worker test_flag batch_upd init_rc load_rc verify ext part).calls.length ∧
    (workerLoop test_flag batch_upd verify ext 0 part WorkerState.init).intvl_count <
      batch_upd ∧
    (∀ (verifyW : Nat → Nat → List Char → Int) (k_perms : List (List Char)) (W : Nat),
      1 ≤ W → (∀ w i pass, verifyW w i pass < 0) →
      luksDoneAfterJoin test_flag batch_upd verifyW (fun _ _ => false) k_perms W =
        k_perms.length) :=
  ⟨luks_done_eq_calls test_flag batch_upd init_rc load_rc verify ext part,
    workerLoop_intvl_lt test_flag batch_upd hB verify ext part 0 _ hB,
    fun verifyW k_perms W hW hrej =>
      luksDoneAfterJoin_of_rejected test_flag batch_upd verifyW _ k_perms W hW hrej
        (fun _ _ => rfl)⟩

/-- Witness for `worker_luks_done`: batch size 10, two candidates, both rejected. -/
theorem worker_luks_done_witness :
    1 ≤ 10 ∧
    (worker true 10 0 0 (fun _ _ => -1) (fun _ => false)
      ["a b".toList, "b a".toList]).luks_done =
    (worker true 10 0 0 (fun _ _ => -1) (fun _ => false)
      ["a b".toList, "b a".toList]).calls.length :=
  ⟨by decide,
    (worker_luks_done true 10 (by decide) 0 0 (fun _ _ => -1) (fun _ => false)
      ["a b".toList, "b a".toList]).1⟩

theorem calls_ne_nil (test_flag : Bool) (batch_upd : Nat) (init_rc load_rc : Int)
    (verify : Nat → List Char → Int) (ext : Nat → Bool) (part : List (List Char))
    (hword : ∀ raw ∈ part, tokens [] raw ≠ []) :
    ∀ pass ∈ (worker test_flag batch_upd init_rc load_rc verify ext part).calls,
      pass ≠ [] := by
  intro pass hp
  obtain ⟨m, hm⟩ := workerLoop_calls_prefix test_flag batch_upd verify ext part 0
    WorkerState.init
  have hcalls : (worker test_flag batch_upd init_rc load_rc verify ext part).calls =
      (workerLoop test_flag batch_upd verify ext 0 part WorkerState.init).calls := rfl
  rw [hcalls, hm] at hp
  have hp' : pass ∈ part.map (render test_flag) := by
    have : pass ∈ (part.map (render test_flag)).take m := by
      simpa [WorkerState.init] using hp
    exact List.mem_of_mem_take this
  obtain ⟨raw, hraw, rfl⟩ := List.mem_map.1 hp'
  exact render_ne_nil test_flag raw (hword raw hraw)

/-- C8: over a partition whose candidates all hold a word, the passphrases one worker passes to
the verifier are the rendered candidates of its partition in order, up to some point: a prefix
of the rendered partition, none of them empty.  Every call before the last one was rejected, the
worker sets the flag exactly when its last call was accepted (and reports that passphrase), so
no call follows an accepted one; when no other worker sets the flag, the worker stops short of
the end of its partition only after an accepted call; and when the flag is seen set at the start
of iteration `i`, candidate `i` and all later ones are never passed to the verifier. -/
theorem worker_calls (test_flag : Bool) (batch_upd : Nat) (init_rc load_rc : Int)
    (verify : Nat → List Char → Int) (ext : Nat → Bool) (part : List (List Char))
    (hword : ∀ raw ∈ part, tokens [] raw ≠ []) :
    (worker test_flag batch_upd init_rc load_rc verify ext part).calls <+:
      part.map (render test_flag) ∧
    (∀ pass ∈ (worker test_flag batch_upd init_rc load_rc verify ext part).calls,
      pass ≠ []) ∧
    (∀ (j : Nat) (pass : List Char),
      j + 1 < (worker test_flag batch_upd init_rc load_rc verify ext part).calls.length →
      (worker test_flag batch_upd init_rc load_rc verify ext part).calls[j]? = some pass →
      verify j pass < 0) ∧
    ((worker test_flag batch_upd init_rc load_rc verify ext part).worker_terminate = true ↔
      ∃ (j : Nat) (pass : List Char),
        (worker test_flag batch_upd init_rc load_rc verify ext part).calls.length = j + 1 ∧
        (worker test_flag batch_upd init_rc load_rc verify ext part).calls[j]? = some pass ∧
        0 ≤ verify j pass) ∧
    ((∀ i, ext i = false) →
      (worker test_flag batch_upd init_rc load_rc verify ext part).calls.length < part.length →
      (worker test_flag batch_upd init_rc load_rc verify ext part).worker_terminate = true) ∧
    (∀ i, ext i = true →
      (worker test_flag batch_upd init_rc load_rc verify ext part).calls.length ≤ i) ∧
    (worker test_flag batch_upd init_rc load_rc verify ext part).found =
      (if (worker test_flag batch_upd init_rc load_rc verify ext part).worker_terminate
       then (worker test_flag batch_upd init_rc load_rc verify ext part).calls.getLast?.toList
       else []) := by
  have hinv := worker_inv test_flag batch_upd init_rc load_rc verify ext part
  have hnonempty := calls_ne_nil test_flag batch_upd init_rc load_rc verify ext part hword
  have hcalls : (worker test_flag batch_upd init_rc load_rc verify ext part).calls =
      (workerLoop test_flag batch_upd verify ext 0 part WorkerState.init).calls := rfl
  have hwt : (worker test_flag batch_upd init_rc load_rc verify ext part).worker_terminate =
      (workerLoop test_flag batch_upd verify ext 0 part WorkerState.init).worker_terminate :=
    rfl
  have hfound : (worker test_flag batch_upd init_rc load_rc verify ext part).found =
      (workerLoop test_flag batch_upd verify ext 0 part WorkerState.init).found := rfl
  rw [hcalls] at hnonempty
  rw [hfound, hwt, hcalls]
  rw [hcalls] at hinv
  have hpre := workerLoop_calls_prefix test_flag batch_upd verify ext part 0 WorkerState.init
  have hall := fun hext =>
    workerLoop_calls_all test_flag batch_upd verify ext hext part 0 WorkerState.init
  have hle := fun i hi =>
    workerLoop_calls_le test_flag batch_upd verify ext i hi part 0 WorkerState.init rfl
      (Nat.zero_le _)
  generalize workerLoop test_flag batch_upd verify ext 0 part WorkerState.init = st
    at hinv hpre hall hle hnonempty
  have hbool : ¬ st.worker_terminate = true → st.worker_terminate = false := by
    intro hne
    cases hw : st.worker_terminate
    · rfl
    · exact absurd hw hne
  refine ⟨?_, hnonempty, ?_, ?_, ?_, ?_, ?_⟩
  · obtain ⟨m, hm⟩ := hpre
    rw [hm]
    simpa [WorkerState.init] using List.take_prefix m _
  · intro j pass hj hp
    exact hinv.rejected j pass hj hp
  · constructor
    · intro h
      obtain ⟨j, pass, h1, h2, h3, _⟩ := hinv.accepted h
      exact ⟨j, pass, h1, h2, h3⟩
    · rintro ⟨j, pass, _, h2, h3⟩
      by_contra hne
      have := hinv.last_rejected (hbool hne) j pass h2
      omega
  · intro hext hlt
    by_contra hne
    have := hall hext (hbool hne)
    rw [this] at hlt
    simp [WorkerState.init] at hlt
  · intro i hi
    exact hle i hi
  · cases hw : st.worker_terminate
    · simpa using hinv.no_report hw
    · obtain ⟨j, pass, h1, h2, _, h4⟩ := hinv.accepted hw
      rw [h4, List.getLast?_eq_getElem?, h1]
      simp [h2]

/-- Witness for `worker_calls`: three candidates, the verifier accepts the second; the worker
passes the first two to the verifier, reports the second and never tests the third. -/
theorem worker_calls_witness :
    (∀ raw ∈ ["a b".toList, "b a".toList, "c d".toList], tokens [] raw ≠ []) ∧
    (worker true 10 0 0 (fun i _ => if i = 1 then 0 else -1) (fun _ => false)
      ["a b".toList, "b a".toList, "c d".toList]).calls = ["A b".toList, "B a".toList] ∧
    (worker true 10 0 0 (fun i _ => if i = 1 then 0 else -1) (fun _ => false)
      ["a b".toList, "b a".toList, "c d".toList]).found = ["B a".toList] ∧
    (worker true 10 0 0 (fun i _ => if i = 1 then 0 else -1) (fun _ => false)
      ["a b".toList, "b a".toList, "c d".toList]).calls <+:
      ["a b".toList, "b a".toList, "c d".toList].map (render true) :=
  ⟨by decide, by decide, by decide,
    (worker_calls true 10 0 0 (fun i _ => if i = 1 then 0 else -1) (fun _ => false)
      ["a b".toList, "b a".toList, "c d".toList] (by decide)).1⟩

/-- C10, as stated, fails: with every verification call failing with `-19` (`-ENODEV`, the
device cannot be addressed) the worker still passes the second candidate to the verifier after
the first unavailable result and counts both candidates as attempted, exactly as it does when
every call fails with `-1` (`-EPERM`, wrong passphrase). -/
theorem worker_continues_when_unavailable :
    (∀ raw ∈ ["a b".toList, "b a".toList], tokens [] raw ≠ []) ∧
    (worker true 10 0 0 (fun _ _ => -19) (fun _ => false)
      ["a b".toList, "b a".toList]).calls = ["A b".toList, "B a".toList] ∧
    (worker true 10 0 0 (fun _ _ => -19) (fun _ => false)
      ["a b".toList, "b a".toList]).luks_done = 2 ∧
    worker true 10 0 0 (fun _ _ => -19) (fun _ => false) ["a b".toList, "b a".toList] =
      worker true 10 0 0 (fun _ _ => -1) (fun _ => false) ["a b".toList, "b a".toList] := by
  decide

/-- C10 (amended): over a partition whose candidates all hold a word, `worker` looks only at the
sign of each verification result, so a call that fails because the resource is unavailable is
indistinguishable from one that fails because the passphrase is wrong: two runs whose verifier
results agree on `rc >= 0` are identical.  With every result negative and the flag never seen
set, the worker passes every candidate of its partition to the verifier, none of them rendered
to an empty passphrase, and counts each as attempted; in every case what it has added to
`luks_done` at exit is the number of calls it made. -/
theorem worker_negative_results_alike (test_flag : Bool) (batch_upd : Nat)
    (init_rc load_rc : Int) (verify verify' : Nat → List Char → Int)
    (ext : Nat → Bool) (part : List (List Char))
    (hword : ∀ raw ∈ part, tokens [] raw ≠ [])
    (hsign : ∀ i pass, 0 ≤ verify i pass ↔ 0 ≤ verify' i pass) :
    worker test_flag batch_upd init_rc load_rc verify ext part =
      worker test_flag batch_upd init_rc load_rc verify' ext part ∧
    ((∀ i pass, verify i pass < 0) → (∀ i, ext i = false) →
      (worker test_flag batch_upd init_rc load_rc verify ext part).calls =
        part.map (render test_flag) ∧
      (∀ pass ∈ part.map (render test_flag), pass ≠ []) ∧
      (worker test_flag batch_upd init_rc load_rc verify ext part).luks_done = part.length) ∧
    (worker test_flag batch_upd init_rc load_rc verify ext part).luks_done =
      (worker test_flag batch_upd init_rc load_rc verify ext part).calls.length := by
  refine ⟨?_, ?_, luks_done_eq_calls _ _ _ _ _ _ _⟩
  · unfold worker
    rw [workerLoop_congr test_flag batch_upd verify verify' hsign]
  · intro hrej hext
    have h := calls_of_rejected test_flag batch_upd init_rc load_rc verify ext part
      hrej hext
    refine ⟨h, ?_, ?_⟩
    · intro pass hp
      obtain ⟨raw, hraw, rfl⟩ := List.mem_map.1 hp
      exact render_ne_nil test_flag raw (hword raw hraw)
    · rw [luks_done_eq_calls, h, List.length_map]

/-- Witness for `worker_negative_results_alike`: results `-19` against results `-1`. -/
theorem worker_negative_results_alike_witness :
    (∀ raw ∈ ["a b".toList, "b a".toList], tokens [] raw ≠ []) ∧
    worker true 10 0 0 (fun _ _ => -19) (fun _ => false) ["a b".toList, "b a".toList] =
    worker true 10 0 0 (fun _ _ => -1) (fun _ => false) ["a b".toList, "b a".toList] :=
  ⟨by decide,
    (worker_negative_results_alike true 10 0 0 (fun _ _ => -19) (fun _ _ => -1)
      (fun _ => false) ["a b".toList, "b a".toList] (by decide)
      (fun _ _ => show (0 : Int) ≤ -19 ↔ (0 : Int) ≤ -1 by decide)).1⟩

/-! ### Several workers running concurrently -/

theorem threadStep_flag_mono (test_flag : Bool) (batch_upd : Nat)
    (verify : Nat → List Char → Int) (t : Nat) (g : Globals) (th : Thread)
    (h : g.worker_terminate = true) :
    (threadStep test_flag batch_upd verify t g th).1.worker_terminate = true := by
  unfold threadStep
  cases th.pc <;> simp only <;> (try split_ifs) <;> exact h

theorem stepThread_flag_mono (test_flag : Bool) (batch_upd : Nat)
    (verify : Nat → List Char → Int) (t : Nat) (s : System)
    (h : s.g.worker_terminate = true) :
    (stepThread test_flag batch_upd verify t s).g.worker_terminate = true := by
  unfold stepThread
  split
  · exact h
  · exact threadStep_flag_mono test_flag batch_upd verify t s.g _ h

theorem stepThread_length (test_flag : Bool) (batch_upd : Nat)
    (verify : Nat → List Char → Int) (t : Nat) (s : System) :
    (stepThread test_flag batch_upd verify t s).threads.length = s.threads.length := by
  unfold stepThread
  split
  · rfl
  · simp

/-- Along a trace the flag, once set, stays set. -/
theorem trace_flag_mono (test_flag : Bool) (batch_upd : Nat)
    (verify : Nat → List Char → Int) (sched : List Nat) (s : System) :
    ∀ (i j : Nat) (si sj : System), i ≤ j →
      (trace test_flag batch_upd verify sched s)[i]? = some si →
      (trace test_flag batch_upd verify sched s)[j]? = some sj →
      si.g.worker_terminate = true → sj.g.worker_terminate = true := by
  induction sched generalizing s with
  | nil =>
    intro i j si sj _ hi hj h
    simp only [trace] at hi hj
    cases i with
    | zero =>
      cases j with
      | zero =>
        simp only [List.getElem?_cons_zero, Option.some.injEq] at hi hj
        rw [← hj, hi]; exact h
      | succ j => simp at hj
    | succ i => simp at hi
  | cons t sched ih =>
    intro i j si sj hij hi hj h
    simp only [trace] at hi hj
    cases i with
    | zero =>
      simp only [List.getElem?_cons_zero, Option.some.injEq] at hi
      subst hi
      cases j with
      | zero =>
        simp only [List.getElem?_cons_zero, Option.some.injEq] at hj
        rw [← hj]; exact h
      | succ j =>
        rw [List.getElem?_cons_succ] at hj
        have h0 : (trace test_flag batch_upd verify sched
            (stepThread test_flag batch_upd verify t s))[0]? =
            some (stepThread test_flag batch_upd verify t s) := by
          cases sched <;> simp [trace]
        exact ih _ 0 j _ sj (Nat.zero_le _) h0 hj
          (stepThread_flag_mono test_flag batch_upd verify t s h)
    | succ i =>
      cases j with
      | zero => omega
      | succ j =>
        rw [List.getElem?_cons_succ] at hi hj
        exact ih _ i j si sj (by omega) hi hj h

theorem threadInv_step_self (test_flag : Bool) (batch_upd : Nat)
    (verify : Nat → List Char → Int) (t : Nat) (g : Globals) (th : Thread)
    (h : ThreadInv g t th) :
    ThreadInv (threadStep test_flag batch_upd verify t g th).1 t
      (threadStep test_flag batch_upd verify t g th).2 := by
  obtain ⟨h1, h2⟩ := h
  unfold threadStep
  cases hpc : th.pc <;> simp only [hpc] at h1 h2 ⊢ <;> (try split_ifs) <;>
    simp_all [ThreadInv]
  all_goals exact h1

theorem threadStep_out (test_flag : Bool) (batch_upd : Nat)
    (verify : Nat → List Char → Int) (t : Nat) (g : Globals) (th : Thread) :
    (threadStep test_flag batch_upd verify t g th).1.out = g.out ∨
      ((threadStep test_flag batch_upd verify t g th).1.out = g.out ++ [(t, th.pass)] ∧
        th.pc = Pc.print) := by
  unfold threadStep
  cases hpc : th.pc <;> simp only <;> (try split_ifs) <;> simp

theorem threadStep_mutex (test_flag : Bool) (batch_upd : Nat)
    (verify : Nat → List Char → Int) (t : Nat) (g : Globals) (th : Thread)
    (h : ThreadInv g t th) :
    (threadStep test_flag batch_upd verify t g th).1.print_mutex = g.print_mutex ∨
      (g.print_mutex = none ∧
        (threadStep test_flag batch_upd verify t g th).1.print_mutex = some t) ∨
      (g.print_mutex = some t ∧
        (threadStep test_flag batch_upd verify t g th).1.print_mutex = none) := by
  obtain ⟨_, h2⟩ := h
  unfold threadStep
  cases hpc : th.pc <;> simp only [hpc] at h2 ⊢ <;> (try split_ifs) <;> simp_all

theorem threadInv_step_other (test_flag : Bool) (batch_upd : Nat)
    (verify : Nat → List Char → Int) (t u : Nat) (hne : u ≠ t) (g : Globals)
    (th thu : Thread) (h : ThreadInv g t th) (hu : ThreadInv g u thu) :
    ThreadInv (threadStep test_flag batch_upd verify t g th).1 u thu := by
  have hflag := threadStep_flag_mono test_flag batch_upd verify t g th
  have hout := threadStep_out test_flag batch_upd verify t g th
  have hmut := threadStep_mutex test_flag batch_upd verify t g th h
  obtain ⟨hu1, hu2⟩ := hu
  generalize (threadStep test_flag batch_upd verify t g th).1 = g' at hflag hout hmut ⊢
  have hmem : u ∈ g'.out.map Prod.fst → u ∈ g.out.map Prod.fst := by
    rcases hout with ho | ⟨ho, _⟩
    · rw [ho]; exact id
    · rw [ho]
      intro hm
      simp only [List.map_append, List.map_cons, List.map_nil, List.mem_append,
        List.mem_singleton] at hm
      rcases hm with hm | hm
      · exact hm
      · exact absurd hm hne
  constructor
  · intro hm
    rcases hu1 (hmem hm) with h | h | ⟨hf, h⟩
    · exact Or.inl h
    · exact Or.inr (Or.inl h)
    · exact Or.inr (Or.inr ⟨hflag hf, h⟩)
  · rw [hu2]
    have hne' : some t ≠ some u := fun e => hne (Option.some.inj e).symm
    rcases hmut with hm | ⟨hm1, hm2⟩ | ⟨hm1, hm2⟩
    · rw [hm]
    · rw [hm1, hm2]
      exact ⟨fun e => Option.noConfusion e, fun e => absurd e hne'⟩
    · rw [hm1, hm2]
      exact ⟨fun e => absurd e hne', fun e => Option.noConfusion e⟩

theorem sysInv_init (parts : List (List (List Char))) : SysInv (System.init parts) := by
  refine ⟨?_, ?_, ?_⟩
  · intro t th hth
    simp only [System.init, List.getElem?_map] at hth
    cases hp : parts[t]? with
    | none => rw [hp] at hth; exact Option.noConfusion hth
    | some part =>
      rw [hp] at hth
      have e := Option.some.inj hth
      subst e
      simp [ThreadInv, System.init]
  · simp [System.init]
  · intro t ht
    simp [System.init] at ht

theorem sysInv_step (test_flag : Bool) (batch_upd : Nat)
    (verify : Nat → List Char → Int) (t : Nat) (s : System) (h : SysInv s) :
    SysInv (stepThread test_flag batch_upd verify t s) := by
  obtain ⟨hth, hnd, hlt⟩ := h
  unfold stepThread
  cases ht : s.threads[t]? with
  | none => exact ⟨hth, hnd, hlt⟩
  | some th =>
    have hinv := hth t th ht
    have htlen : t < s.threads.length := by
      by_contra hn
      rw [List.getElem?_eq_none (by omega)] at ht
      exact Option.noConfusion ht
    have hout := threadStep_out test_flag batch_upd verify t s.g th
    refine ⟨?_, ?_, ?_⟩
    · intro u thu hu
      simp only at hu ⊢
      rw [List.getElem?_set] at hu
      by_cases hut : t = u
      · subst hut
        rw [if_pos rfl, if_pos htlen] at hu
        rw [← Option.some.inj hu]
        exact threadInv_step_self test_flag batch_upd verify t s.g th hinv
      · rw [if_neg hut] at hu
        exact threadInv_step_other test_flag batch_upd verify t u (fun e => hut e.symm) s.g th
          thu hinv (hth u thu hu)
    · simp only
      rcases hout with ho | ⟨ho, hpc⟩
      · rw [ho]; exact hnd
      · rw [ho, List.map_append, List.map_cons, List.map_nil]
        have hnot : t ∉ s.g.out.map Prod.fst := by
          intro hm
          rcases hinv.1 hm with h | h | ⟨_, h | h | h | h⟩ <;> rw [hpc] at h <;>
            exact Pc.noConfusion h
        exact List.Nodup.append hnd (List.nodup_singleton _)
          (by
            intro x hx hx'
            rw [List.mem_singleton] at hx'
            subst hx'
            exact hnot hx)
    · intro u hu
      simp only at hu ⊢
      rw [List.length_set]
      rcases hout with ho | ⟨ho, _⟩
      · rw [ho] at hu; exact hlt u hu
      · rw [ho, List.map_append, List.mem_append] at hu
        rcases hu with hu | hu
        · exact hlt u hu
        · simp only [List.map_cons, List.map_nil, List.mem_singleton] at hu
          rw [hu]; exact htlen

theorem sysInv_run (test_flag : Bool) (batch_upd : Nat) (verify : Nat → List Char → Int)
    (sched : List Nat) (s : System) (h : SysInv s) :
    SysInv (run test_flag batch_upd verify sched s) := by
  induction sched generalizing s with
  | nil => exact h
  | cons t sched ih => exact ih _ (sysInv_step test_flag batch_upd verify t s h)

theorem run_length (test_flag : Bool) (batch_upd : Nat) (verify : Nat → List Char → Int)
    (sched : List Nat) (s : System) :
    (run test_flag batch_upd verify sched s).threads.length = s.threads.length := by
  induction sched generalizing s with
  | nil => rfl
  | cons t sched ih =>
    simp only [run]
    rw [ih, stepThread_length]

theorem length_le_of_nodup_lt (l : List Nat) (n : Nat) (hnd : l.Nodup)
    (hlt : ∀ x ∈ l, x < n) : l.length ≤ n := by
  have hsub : l ⊆ List.range n := fun x hx => List.mem_range.2 (hlt x hx)
  have := (List.subperm_of_subset hnd hsub).length_le
  simpa using this

/-- C9, as stated, fails: two workers with one candidate each and a verifier that accepts both.
Each worker passes the flag test before the other has set the flag, and both write a `Found:`
report.  The report and the flag set are not one critical section either: after six steps of
worker 0 its report is written, the mutex is free again and the flag is still clear. -/
theorem two_found_reports :
    (run true 10 (fun _ _ => 0) [0, 0, 0, 1, 1, 1, 0, 0, 0, 0, 1, 1, 1, 1]
      (System.init [["a b".toList], ["b a".toList]])).g.out =
      [(0, "A b".toList), (1, "B a".toList)] ∧
    (run true 10 (fun _ _ => 0) [0, 0, 0, 0, 0, 0]
      (System.init [["a b".toList], ["b a".toList]])).g =
      { worker_terminate := false, luks_done := 0, print_mutex := none,
        out := [(0, "A b".toList)] } := by
  decide

/-- C9 (amended): under every schedule of the workers the flag `worker_terminate`, once set, is
never cleared, so it goes from false to true at most once; every worker writes at most one
`Found:` report, so at most as many reports as there are workers are written; and at most one
worker at a time is between `print_mutex.lock()` and `print_mutex.unlock()`, where the report is
written. -/
theorem flag_and_reports (test_flag : Bool) (batch_upd : Nat)
    (verify : Nat → List Char → Int) (parts : List (List (List Char))) (sched : List Nat) :
    (∀ (i j : Nat) (si sj : System), i ≤ j →
      (trace test_flag batch_upd verify sched (System.init parts))[i]? = some si →
      (trace test_flag batch_upd verify sched (System.init parts))[j]? = some sj →
      si.g.worker_terminate = true → sj.g.worker_terminate = true) ∧
    (∀ (i j : Nat) (si si' sj sj' : System),
      (trace test_flag batch_upd verify sched (System.init parts))[i]? = some si →
      (trace test_flag batch_upd verify sched (System.init parts))[i + 1]? = some si' →
      (trace test_flag batch_upd verify sched (System.init parts))[j]? = some sj →
      (trace test_flag batch_upd verify sched (System.init parts))[j + 1]? = some sj' →
      si.g.worker_terminate = false → si'.g.worker_terminate = true →
      sj.g.worker_terminate = false → sj'.g.worker_terminate = true → i = j) ∧
    ((run test_flag batch_upd verify sched (System.init parts)).g.out.map Prod.fst).Nodup ∧
    (run test_flag batch_upd verify sched (System.init parts)).g.out.length ≤ parts.length ∧
    (∀ (t u : Nat) (th thu : Thread),
      (run test_flag batch_upd verify sched (System.init parts)).threads[t]? = some th →
      (run test_flag batch_upd verify sched (System.init parts)).threads[u]? = some thu →
      (th.pc = Pc.print ∨ th.pc = Pc.unlock) → (thu.pc = Pc.print ∨ thu.pc = Pc.unlock) →
      t = u) := by
  have hmono := trace_flag_mono test_flag batch_upd verify sched (System.init parts)
  have hinv := sysInv_run test_flag batch_upd verify sched _ (sysInv_init parts)
  have hlen := run_length test_flag batch_upd verify sched (System.init parts)
  refine ⟨hmono, ?_, hinv.2.1, ?_, ?_⟩
  · intro i j si si' sj sj' hi hi' hj hj' h1 h2 h3 h4
    by_contra hne
    rcases Nat.lt_or_gt_of_ne hne with hlt | hgt
    · have := hmono (i + 1) j si' sj (by omega) hi' hj h2
      rw [h3] at this
      exact Bool.noConfusion this
    · have := hmono (j + 1) i sj' si (by omega) hj' hi h4
      rw [h1] at this
      exact Bool.noConfusion this
  · have h := length_le_of_nodup_lt _ _ hinv.2.1 hinv.2.2
    rw [hlen] at h
    simpa [System.init] using h
  · intro t u th thu ht hu hpt hpu
    have h1 := ((hinv.1 t th ht).2).1 hpt
    have h2 := ((hinv.1 u thu hu).2).1 hpu
    rw [h1] at h2
    exact Option.some.inj h2

/-- Witness for `flag_and_reports`: the schedule on which both workers report. -/
theorem flag_and_reports_witness :
    (run true 10 (fun _ _ => 0) [0, 0, 0, 1, 1, 1, 0, 0, 0, 0, 1, 1, 1, 1]
      (System.init [["a b".toList], ["b a".toList]])).g.out.length ≤ 2 :=
  (flag_and_reports true 10 (fun _ _ => 0) [["a b".toList], ["b a".toList]]
    [0, 0, 0, 1, 1, 1, 0, 0, 0, 0, 1, 1, 1, 1]).2.2.2.1

/-! ### Lexicographic order and permutations -/

section Enumeration

variable {α : Type} [LinearOrder α]

theorem lex_irrefl (l : List α) : ¬ List.Lex (· < ·) l l :=
  fun h => lt_irrefl l h

theorem lex_trans {a b c : List α} (h1 : List.Lex (· < ·) a b) (h2 : List.Lex (· < ·) b c) :
    List.Lex (· < ·) a c :=
  lt_trans (a := a) (b := b) (c := c) h1 h2

theorem lex_asymm {a b : List α} (h1 : List.Lex (· < ·) a b) (h2 : List.Lex (· < ·) b a) :
    False :=
  lex_irrefl a (lex_trans h1 h2)

theorem lex_trichotomy (a b : List α) :
    List.Lex (· < ·) a b ∨ a = b ∨ List.Lex (· < ·) b a :=
  lt_trichotomy a b

/-- A strictly ascending list is the least arrangement of its elements. -/
theorem sorted_lt_min_perm (l m : List α) (hs : l.Sorted (· < ·)) (hp : m.Perm l) :
    l = m ∨ List.Lex (· < ·) l m := by
  induction l generalizing m with
  | nil => left; exact (List.perm_nil.1 hp).symm
  | cons a t ih =>
    cases m with
    | nil => exact absurd hp.length_eq (by simp)
    | cons b m' =>
      obtain ⟨hlt, hst⟩ := List.sorted_cons.1 hs
      have hb : b ∈ a :: t := hp.subset (List.mem_cons_self _ _)
      rcases List.mem_cons.1 hb with rfl | hbt
      · rcases ih m' hst (List.Perm.cons_inv hp) with h | h
        · left; rw [h]
        · right; exact List.Lex.cons h
      · right; exact List.Lex.rel (hlt b hbt)

/-- A strictly descending list is the greatest arrangement of its elements. -/
theorem sorted_gt_max_perm (l m : List α) (hs : l.Sorted (· > ·)) (hp : m.Perm l) :
    m = l ∨ List.Lex (· < ·) m l := by
  induction l generalizing m with
  | nil => left; exact List.perm_nil.1 hp
  | cons a t ih =>
    cases m with
    | nil => exact absurd hp.length_eq (by simp)
    | cons b m' =>
      obtain ⟨hlt, hst⟩ := List.sorted_cons.1 hs
      have hb : b ∈ a :: t := hp.subset (List.mem_cons_self _ _)
      rcases List.mem_cons.1 hb with rfl | hbt
      · rcases ih m' hst (List.Perm.cons_inv hp) with h | h
        · left; rw [h]
        · right; exact List.Lex.cons h
      · right; exact List.Lex.rel (hlt b hbt)

/-- Lexicographic order is kept by cutting both lists to their first `k` elements, up to
equality. -/
theorem lex_take (k : Nat) {a b : List α} (h : List.Lex (· < ·) a b) :
    a.take k = b.take k ∨ List.Lex (· < ·) (a.take k) (b.take k) := by
  induction k generalizing a b with
  | zero => left; simp
  | succ k ih =>
    cases h with
    | nil => right; simp only [List.take_nil, List.take_succ_cons]; exact List.Lex.nil
    | cons h' =>
      rcases ih h' with h | h
      · left; simp [h]
      · right; simp only [List.take_succ_cons]; exact List.Lex.cons h
    | rel h' => right; simp only [List.take_succ_cons]; exact List.Lex.rel h'

/-- Two lists of the same length in lexicographic order stay so whatever is appended. -/
theorem lex_append_of_length_eq {a b : List α} (h : List.Lex (· < ·) a b)
    (hlen : a.length = b.length) (x y : List α) : List.Lex (· < ·) (a ++ x) (b ++ y) := by
  induction h with
  | nil => simp at hlen
  | cons _ ih =>
    simp only [List.length_cons, add_left_inj] at hlen
    exact List.Lex.cons (ih hlen)
  | rel h' => exact List.Lex.rel h'

theorem lex_of_append_left (s : List α) {a b : List α}
    (h : List.Lex (· < ·) (s ++ a) (s ++ b)) : List.Lex (· < ·) a b := by
  induction s with
  | nil => exact h
  | cons c s ih =>
    cases h with
    | cons h' => exact ih h'
    | rel h' => exact absurd h' (lt_irrefl c)

end Enumeration

/-! ### `std::next_permutation` computes the lexicographic successor -/

section NextPermutation

variable {α : Type} [LinearOrder α]

/-- The search of `next_permutation` in an ascending reversed suffix that holds an element
greater than `p`: it finds the least such element `y`; what is left, with `p` in the place of
`y`, is still ascending. -/
theorem swapRev_spec (p : α) (rsuf : List α) (hs : rsuf.Sorted (· < ·))
    (hex : ∃ z ∈ rsuf, p < z) (hp : p ∉ rsuf) :
    (swapRev p rsuf).1 ∈ rsuf ∧ p < (swapRev p rsuf).1 ∧
    (∀ z ∈ rsuf, p < z → (swapRev p rsuf).1 ≤ z) ∧
    ((swapRev p rsuf).1 :: (swapRev p rsuf).2).Perm (p :: rsuf) ∧
    ((swapRev p rsuf).2).Sorted (· < ·) := by
  induction rsuf with
  | nil =>
    obtain ⟨z, hz, _⟩ := hex
    exact absurd hz (List.not_mem_nil z)
  | cons x xs ih =>
    obtain ⟨hlt, hsx⟩ := List.sorted_cons.1 hs
    unfold swapRev
    by_cases hpx : p < x
    · rw [if_pos hpx]
      refine ⟨List.mem_cons_self _ _, hpx, ?_, List.Perm.swap _ _ _, ?_⟩
      · intro z hz _
        rcases List.mem_cons.1 hz with rfl | hz
        · exact le_refl _
        · exact le_of_lt (hlt z hz)
      · exact List.sorted_cons.2 ⟨fun b hb => lt_trans hpx (hlt b hb), hsx⟩
    · rw [if_neg hpx]
      have hxp : x < p := by
        rcases lt_trichotomy p x with h | h | h
        · exact absurd h hpx
        · exact absurd (h ▸ List.mem_cons_self _ _) hp
        · exact h
      have hex' : ∃ z ∈ xs, p < z := by
        obtain ⟨z, hz, hpz⟩ := hex
        rcases List.mem_cons.1 hz with rfl | hz
        · exact absurd hpz hpx
        · exact ⟨z, hz, hpz⟩
      obtain ⟨h1, h2, h3, h4, h5⟩ := ih hsx hex' (fun h => hp (List.mem_cons_of_mem _ h))
      refine ⟨List.mem_cons_of_mem _ h1, h2, ?_, ?_, ?_⟩
      · intro z hz hpz
        rcases List.mem_cons.1 hz with rfl | hz
        · exact absurd hpz hpx
        · exact h3 z hz hpz
      · exact ((List.Perm.swap _ _ _).trans (List.Perm.cons x h4)).trans (List.Perm.swap _ _ _)
      · refine List.sorted_cons.2 ⟨?_, h5⟩
        intro b hb
        have hb' : b ∈ p :: xs := h4.subset (List.mem_cons_of_mem _ hb)
        rcases List.mem_cons.1 hb' with rfl | hb'
        · exact hxp
        · exact hlt b hb'

/-- Outcome of the scan of `next_permutation` entered with a strictly descending suffix
`ii :: tail`: either the whole sequence is strictly descending and comes back reversed, or it
splits as `pre ++ p :: suf` with `suf` strictly descending and holding an element greater than
`p`, and the result is `pre` followed by the outcome of the search in `suf`. -/
theorem nextPermScan_spec (ps : List α) (ii : α) (tail : List α)
    (hs : (ii :: tail).Sorted (· > ·)) (hnd : (ps.reverse ++ ii :: tail).Nodup) :
    ((nextPermScan ps ii tail).1 = false ∧
      (ps.reverse ++ ii :: tail).Sorted (· > ·) ∧
      (nextPermScan ps ii tail).2 = (ps.reverse ++ ii :: tail).reverse) ∨
    ((nextPermScan ps ii tail).1 = true ∧
      ∃ (pre : List α) (p : α) (suf : List α),
        ps.reverse ++ ii :: tail = pre ++ p :: suf ∧ suf.Sorted (· > ·) ∧
        (∃ z ∈ suf, p < z) ∧
        (nextPermScan ps ii tail).2 =
          pre ++ (swapRev p suf.reverse).1 :: (swapRev p suf.reverse).2) := by
  induction ps generalizing ii tail with
  | nil =>
    left
    exact ⟨rfl, by simpa using hs, by simp [nextPermScan]⟩
  | cons p ps ih =>
    unfold nextPermScan
    by_cases hp : p < ii
    · right
      rw [if_pos hp]
      exact ⟨rfl, ps.reverse, p, ii :: tail, by simp, hs, ⟨ii, List.mem_cons_self _ _, hp⟩, rfl⟩
    · rw [if_neg hp]
      have hne : p ≠ ii := by
        intro e
        subst e
        have h1 : (ps.reverse ++ [p] ++ p :: tail).Nodup := by simpa using hnd
        have := List.disjoint_of_nodup_append h1 (by simp : p ∈ ps.reverse ++ [p])
          (List.mem_cons_self _ _)
        exact this
      have hlt : ii < p := lt_of_le_of_ne (not_lt.1 hp) (Ne.symm hne)
      have hs' : (p :: ii :: tail).Sorted (· > ·) := by
        refine List.sorted_cons.2 ⟨?_, hs⟩
        intro b hb
        rcases List.mem_cons.1 hb with rfl | hb
        · exact hlt
        · exact lt_trans ((List.sorted_cons.1 hs).1 b hb) hlt
      have hnd' : (ps.reverse ++ p :: ii :: tail).Nodup := by simpa using hnd
      have e : (p :: ps).reverse ++ ii :: tail = ps.reverse ++ p :: ii :: tail := by simp
      rw [e]
      exact ih p (ii :: tail) hs' hnd'

theorem next_permutation_cases (l : List α) (hnd : l.Nodup) :
    ((next_permutation l).1 = false ∧ l.Sorted (· > ·) ∧
      (next_permutation l).2 = l.reverse) ∨
    ((next_permutation l).1 = true ∧
      ∃ (pre : List α) (p : α) (suf : List α),
        l = pre ++ p :: suf ∧ suf.Sorted (· > ·) ∧ (∃ z ∈ suf, p < z) ∧
        (next_permutation l).2 =
          pre ++ (swapRev p suf.reverse).1 :: (swapRev p suf.reverse).2) := by
  unfold next_permutation
  cases hr : l.reverse with
  | nil =>
    have : l = [] := by simpa using hr
    subst this
    left; simp
  | cons x r =>
    cases r with
    | nil =>
      have : l = [x] := by
        have := congrArg List.reverse hr
        simpa using this
      subst this
      left; simp
    | cons p ps =>
      have hl : l = (p :: ps).reverse ++ [x] := by
        have := congrArg List.reverse hr
        simpa using this
      simp only
      have h := nextPermScan_spec (p :: ps) x [] (List.sorted_singleton x) (hl ▸ hnd)
      rw [← hl, hr] at h
      exact h

/-- The successor found by `next_permutation` is below every greater arrangement. -/
theorem succ_le_of_lex (pre : List α) (p y : α) (suf ys : List α)
    (hsuf : suf.Sorted (· > ·)) (hpy : p < y) (hmin : ∀ z ∈ suf, p < z → y ≤ z)
    (hperm : (y :: ys).Perm (p :: suf)) (hys : ys.Sorted (· < ·))
    (m : List α) (hm : m.Perm (pre ++ p :: suf)) (hlex : List.Lex (· < ·) (pre ++ p :: suf) m) :
    pre ++ y :: ys = m ∨ List.Lex (· < ·) (pre ++ y :: ys) m := by
  induction pre generalizing m with
  | nil =>
    simp only [List.nil_append] at hm hlex ⊢
    cases hlex with
    | cons h' =>
      have := sorted_gt_max_perm suf _ hsuf (List.Perm.cons_inv hm)
      rcases this with h | h
      · rw [h] at h'; exact absurd h' (lex_irrefl _)
      · exact absurd (lex_trans h h') (lex_irrefl _)
    | @rel _ _ b m' hpb =>
      have hb : b ∈ p :: suf := hm.subset (List.mem_cons_self _ _)
      have hbs : b ∈ suf := by
        rcases List.mem_cons.1 hb with rfl | hb
        · exact absurd hpb (lt_irrefl _)
        · exact hb
      rcases lt_or_eq_of_le (hmin b hbs hpb) with hlt | heq
      · right; exact List.Lex.rel hlt
      · subst heq
        have hm' : m'.Perm ys := List.Perm.cons_inv (hm.trans hperm.symm)
        rcases sorted_lt_min_perm ys m' hys hm' with h | h
        · left; rw [h]
        · right; exact List.Lex.cons h
  | cons a pre ih =>
    simp only [List.cons_append] at hm hlex ⊢
    cases hlex with
    | cons h' =>
      rcases ih _ (List.Perm.cons_inv hm) h' with h | h
      · left; rw [h]
      · right; exact List.Lex.cons h
    | rel h' => right; exact List.Lex.rel h'

/-- When `next_permutation` returns `false` on a duplicate-free sequence, the sequence was
strictly descending and comes back reversed. -/
theorem next_permutation_false (l : List α) (hnd : l.Nodup)
    (h : (next_permutation l).1 = false) :
    l.Sorted (· > ·) ∧ (next_permutation l).2 = l.reverse := by
  rcases next_permutation_cases l hnd with ⟨_, h2, h3⟩ | ⟨h1, _⟩
  · exact ⟨h2, h3⟩
  · rw [h] at h1; exact Bool.noConfusion h1

/-- When `next_permutation` returns `true` on a duplicate-free sequence, the result is the
least arrangement of the same elements above the sequence. -/
theorem next_permutation_true (l : List α) (hnd : l.Nodup)
    (h : (next_permutation l).1 = true) :
    ((next_permutation l).2).Perm l ∧ List.Lex (· < ·) l (next_permutation l).2 ∧
    ∀ m : List α, m.Perm l → List.Lex (· < ·) l m →
      ((next_permutation l).2 = m ∨ List.Lex (· < ·) (next_permutation l).2 m) := by
  rcases next_permutation_cases l hnd with ⟨h1, _⟩ | ⟨_, pre, p, suf, hl, hsuf, hex, hres⟩
  · rw [h] at h1; exact Bool.noConfusion h1
  · have hnd' : (pre ++ p :: suf).Nodup := hl ▸ hnd
    have hp : p ∉ suf.reverse := by
      have := (List.nodup_cons.1 (List.nodup_append.1 hnd').2.1).1
      simpa using this
    have hsr : suf.reverse.Sorted (· < ·) := by
      have := List.pairwise_reverse.2 hsuf
      exact this
    have hex' : ∃ z ∈ suf.reverse, p < z := by
      obtain ⟨z, hz, hpz⟩ := hex
      exact ⟨z, List.mem_reverse.2 hz, hpz⟩
    obtain ⟨_, s2, s3, s4, s5⟩ := swapRev_spec p suf.reverse hsr hex' hp
    have hperm : ((swapRev p suf.reverse).1 :: (swapRev p suf.reverse).2).Perm (p :: suf) :=
      s4.trans (List.Perm.cons p (List.reverse_perm suf))
    rw [hres, hl]
    refine ⟨List.Perm.append_left pre hperm, ?_, ?_⟩
    · exact List.Lex.append_left _ (List.Lex.rel s2) pre
    · intro m hm hlex
      exact succ_le_of_lex pre p _ suf _ hsuf s2
        (fun z hz hpz => s3 z (List.mem_reverse.2 hz) hpz) hperm s5 m hm hlex

end NextPermutation

/-! ### Counting k-permutations -/

section KPerms

variable {α : Type} [LinearOrder α]

theorem mem_kpermsOf (k : Nat) (l : List α) (hnd : l.Nodup) (q : List α) :
    q ∈ kpermsOf k l ↔ IsKPerm l k q := by
  induction k generalizing l q with
  | zero =>
    simp only [kpermsOf, List.mem_singleton, IsKPerm]
    constructor
    · rintro rfl
      exact ⟨List.nodup_nil, rfl, fun x hx => absurd hx (List.not_mem_nil x)⟩
    · rintro ⟨_, hlen, _⟩
      exact List.length_eq_zero.1 hlen
  | succ k ih =>
    simp only [kpermsOf, List.mem_flatten, List.mem_map]
    constructor
    · rintro ⟨L, ⟨x, hx, rfl⟩, hq⟩
      obtain ⟨q', hq', rfl⟩ := List.mem_map.1 hq
      obtain ⟨h1, h2, h3⟩ := (ih (l.erase x) (hnd.erase x) q').1 hq'
      refine ⟨List.nodup_cons.2 ⟨?_, h1⟩, by simp [h2], ?_⟩
      · intro hxq
        exact ((List.Nodup.mem_erase_iff hnd).1 (h3 x hxq)).1 rfl
      · intro y hy
        rcases List.mem_cons.1 hy with rfl | hy
        · exact hx
        · exact ((List.Nodup.mem_erase_iff hnd).1 (h3 y hy)).2
    · rintro ⟨h1, h2, h3⟩
      cases q with
      | nil => simp at h2
      | cons x q' =>
        obtain ⟨hx, hq'⟩ := List.nodup_cons.1 h1
        refine ⟨_, ⟨x, h3 x (List.mem_cons_self _ _), rfl⟩, ?_⟩
        refine List.mem_map.2 ⟨q', ?_, rfl⟩
        refine (ih (l.erase x) (hnd.erase x) q').2 ⟨hq', by simpa using h2, ?_⟩
        intro y hy
        refine (List.Nodup.mem_erase_iff hnd).2 ⟨?_, h3 y (List.mem_cons_of_mem _ hy)⟩
        rintro rfl
        exact hx hy

theorem nodup_kpermsOf (k : Nat) (l : List α) (hnd : l.Nodup) : (kpermsOf k l).Nodup := by
  induction k generalizing l with
  | zero => simp [kpermsOf]
  | succ k ih =>
    simp only [kpermsOf]
    rw [List.nodup_flatten]
    constructor
    · intro L hL
      obtain ⟨x, _, rfl⟩ := List.mem_map.1 hL
      exact List.Nodup.map (fun a b h => (List.cons.inj h).2) (ih _ (hnd.erase x))
    · rw [List.pairwise_map]
      refine List.Nodup.pairwise_of_forall_ne hnd ?_
      intro a _ b _ hab q hqa hqb
      obtain ⟨qa, _, rfl⟩ := List.mem_map.1 hqa
      obtain ⟨qb, _, hb⟩ := List.mem_map.1 hqb
      exact hab (List.cons.inj hb).1.symm

theorem length_kpermsOf (k : Nat) (l : List α) :
    (kpermsOf k l).length = l.length.descFactorial k := by
  induction k generalizing l with
  | zero => simp [kpermsOf]
  | succ k ih =>
    simp only [kpermsOf, List.length_flatten, List.map_map]
    have h1 : List.map (List.length ∘ fun x => List.map (fun q => x :: q)
        (kpermsOf k (l.erase x))) l =
        List.replicate l.length ((l.length - 1).descFactorial k) := by
      rw [List.eq_replicate_iff]
      refine ⟨by simp, ?_⟩
      intro b hb
      obtain ⟨x, hx, rfl⟩ := List.mem_map.1 hb
      simp only [Function.comp, List.length_map]
      rw [ih, List.length_erase_of_mem hx]
    rw [h1, List.sum_const_nat]
    cases hn : l.length with
    | zero => simp
    | succ n => rw [Nat.succ_descFactorial_succ]; simp

omit [LinearOrder α] in
theorem countP_lt_countP (K : List (List α)) (P Q : List α → Bool)
    (himp : ∀ x ∈ K, Q x = true → P x = true)
    (hex : ∃ x ∈ K, P x = true ∧ Q x = false) : K.countP Q < K.countP P := by
  induction K with
  | nil =>
    obtain ⟨x, hx, _⟩ := hex
    exact absurd hx (List.not_mem_nil x)
  | cons a K ih =>
    have hle : K.countP Q ≤ K.countP P := by
      apply List.countP_mono_left
      intro x hx hq
      exact himp x (List.mem_cons_of_mem _ hx) hq
    rw [List.countP_cons, List.countP_cons]
    obtain ⟨x, hx, hp, hq⟩ := hex
    rcases List.mem_cons.1 hx with rfl | hxK
    · rw [hp, hq]
      simp only [if_true, Bool.false_eq_true, if_false]
      omega
    · have := ih (fun y hy => himp y (List.mem_cons_of_mem _ hy)) ⟨x, hxK, hp, hq⟩
      by_cases hqa : Q a = true
      · rw [hqa, himp a (List.mem_cons_self _ _) hqa]
        simp only [if_true]
        omega
      · have hqa' : Q a = false := by
          cases h : Q a
          · rfl
          · exact absurd h hqa
        rw [hqa']
        simp only [Bool.false_eq_true, if_false]
        split <;> omega

/-- Every k-permutation of a duplicate-free `base` is the start of an arrangement of
`base`. -/
theorem isKPerm_extend (base : List α) (hnd : base.Nodup) (k : Nat) (q : List α)
    (hq : IsKPerm base k q) : ∃ m : List α, m.Perm base ∧ m.take k = q ∧ ∃ r, m = q ++ r := by
  obtain ⟨h1, h2, h3⟩ := hq
  refine ⟨q ++ base.diff q, ?_, List.take_left' h2, _, rfl⟩
  apply List.subperm_append_diff_self_of_count_le
  intro x hx
  rw [List.count_eq_one_of_mem h1 hx, List.count_eq_one_of_mem hnd (h3 x hx)]

omit [LinearOrder α] in
theorem isKPerm_take (base : List α) (hnd : base.Nodup) (k : Nat) (hk : k ≤ base.length)
    (N : List α) (hN : N.Perm base) : IsKPerm base k (N.take k) := by
  refine ⟨?_, ?_, ?_⟩
  · exact List.Nodup.sublist (List.take_sublist k N) (hN.nodup_iff.2 hnd)
  · rw [List.length_take, hN.length_eq]; omega
  · intro x hx
    exact hN.subset (List.mem_of_mem_take hx)

end KPerms

/-! ### One step of `next_partial_permutation` -/

section PartialStep

variable {α : Type} [LinearOrder α]

omit [LinearOrder α] in
theorem reversed_perm (k : Nat) (N : List α) :
    (N.take k ++ (N.drop k).reverse).Perm N := by
  have h : (N.take k ++ (N.drop k).reverse).Perm (N.take k ++ N.drop k) :=
    List.Perm.append_left _ (List.reverse_perm _)
  rwa [List.take_append_drop] at h

omit [LinearOrder α] in
theorem take_reversed (k : Nat) (N : List α) (hk : k ≤ N.length) :
    (N.take k ++ (N.drop k).reverse).take k = N.take k :=
  List.take_left' (by rw [List.length_take]; omega)

omit [LinearOrder α] in
theorem drop_reversed (k : Nat) (N : List α) (hk : k ≤ N.length) :
    (N.take k ++ (N.drop k).reverse).drop k = (N.drop k).reverse :=
  List.drop_left' (by rw [List.length_take]; omega)

/-- When the step returns `false`, the emitted k-prefix is the greatest k-permutation. -/
theorem step_false (base : List α) (hnd : base.Nodup) (k : Nat) (N : List α)
    (hN : N.Perm base) (hk : k ≤ N.length)
    (h : (next_partial_permutation k N).1 = false) (q : List α) (hq : IsKPerm base k q) :
    q = N.take k ∨ List.Lex (· < ·) q (N.take k) := by
  have hperm := reversed_perm k N
  have hnd1 : (N.take k ++ (N.drop k).reverse).Nodup := (hperm.trans hN).nodup_iff.2 hnd
  obtain ⟨hs, _⟩ := next_permutation_false _ hnd1 h
  obtain ⟨m, hm, hmq, _⟩ := isKPerm_extend base hnd k q hq
  rcases sorted_gt_max_perm _ m hs (hm.trans (hperm.trans hN).symm) with h1 | h1
  · left
    rw [← hmq, h1, take_reversed k N hk]
  · rcases lex_take k h1 with h2 | h2
    · left; rw [← hmq, h2, take_reversed k N hk]
    · right; rw [← hmq]; rw [take_reversed k N hk] at h2; exact h2

/-- When the step returns `true` from a state whose part after position `k` is ascending, the
new state is an arrangement of the same elements, its part after position `k` is ascending
again, its k-prefix is strictly greater, and no k-permutation lies strictly between the old and
the new k-prefix. -/
theorem step_true (base : List α) (hnd : base.Nodup) (k : Nat) (N : List α)
    (hN : N.Perm base) (hk : k ≤ N.length) (hs : (N.drop k).Sorted (· < ·))
    (h : (next_partial_permutation k N).1 = true) :
    ((next_partial_permutation k N).2).Perm base ∧
    (((next_partial_permutation k N).2).drop k).Sorted (· < ·) ∧
    List.Lex (· < ·) (N.take k) (((next_partial_permutation k N).2).take k) ∧
    ∀ q : List α, IsKPerm base k q → List.Lex (· < ·) (N.take k) q →
      (((next_partial_permutation k N).2).take k = q ∨
        List.Lex (· < ·) (((next_partial_permutation k N).2).take k) q) := by
  have hperm := reversed_perm k N
  have hnd1 : (N.take k ++ (N.drop k).reverse).Nodup := (hperm.trans hN).nodup_iff.2 hnd
  obtain ⟨hp, hlex, hmin⟩ := next_permutation_true _ hnd1 h
  have htake := take_reversed k N hk
  have hdrop := drop_reversed k N hk
  unfold next_partial_permutation
  generalize (next_permutation (N.take k ++ (N.drop k).reverse)).2 = N' at hp hlex hmin ⊢
  generalize hl1 : N.take k ++ (N.drop k).reverse = l1 at hp hlex hmin hperm hnd1 htake hdrop
  have hlenN' : N'.length = N.length := by rw [hp.length_eq, hperm.length_eq]
  have hlen1 : l1.length = N.length := hperm.length_eq
  have hlenT : (N.take k).length = k := by rw [List.length_take]; omega
  have hlenT' : (N'.take k).length = k := by rw [List.length_take]; omega
  have hnd' : N'.Nodup := hp.nodup_iff.2 hnd1
  have hsd : (l1.drop k).Sorted (· > ·) := by
    rw [hdrop]
    exact List.pairwise_reverse.2 (by simpa using hs)
  -- the k-prefix grows strictly
  have hstrict : List.Lex (· < ·) (N.take k) (N'.take k) := by
    rcases lex_take k hlex with h1 | h1
    · exfalso
      have e1 : l1 = l1.take k ++ l1.drop k := (List.take_append_drop k l1).symm
      have e2 : N' = l1.take k ++ N'.drop k := by
        rw [h1]; exact (List.take_append_drop k N').symm
      have hlex' : List.Lex (· < ·) (l1.drop k) (N'.drop k) := by
        apply lex_of_append_left (l1.take k)
        rw [← e1, ← e2]; exact hlex
      have hpd : (N'.drop k).Perm (l1.drop k) := by
        apply (List.perm_append_left_iff (l1.take k)).1
        rw [← e1, ← e2]; exact hp
      rcases sorted_gt_max_perm _ _ hsd hpd with h2 | h2
      · rw [h2] at hlex'; exact lex_irrefl _ hlex'
      · exact lex_asymm hlex' h2
    · rw [htake] at h1; exact h1
  refine ⟨hp.trans (hperm.trans hN), ?_, hstrict, ?_⟩
  · -- the part after position k is ascending
    have hsorted : ((N'.drop k).insertionSort (· ≤ ·)).Sorted (· < ·) :=
      (List.sorted_insertionSort (· ≤ ·) _).lt_of_le
        ((List.perm_insertionSort (· ≤ ·) _).nodup_iff.2
          (List.Nodup.sublist (List.drop_sublist k N') hnd'))
    have hpm : (N'.take k ++ (N'.drop k).insertionSort (· ≤ ·)).Perm l1 := by
      have : (N'.take k ++ (N'.drop k).insertionSort (· ≤ ·)).Perm
          (N'.take k ++ N'.drop k) :=
        List.Perm.append_left _ (List.perm_insertionSort (· ≤ ·) _)
      rw [List.take_append_drop] at this
      exact this.trans hp
    have hlm : List.Lex (· < ·) l1 (N'.take k ++ (N'.drop k).insertionSort (· ≤ ·)) := by
      have := lex_append_of_length_eq hstrict (by rw [hlenT, hlenT']) (l1.drop k)
        ((N'.drop k).insertionSort (· ≤ ·))
      rw [← htake, List.take_append_drop] at this
      exact this
    rcases hmin _ hpm hlm with h1 | h1
    · have h2 := congrArg (List.drop k) h1
      rw [List.drop_left' hlenT'] at h2
      rw [h2]; exact hsorted
    · exfalso
      have e2 : N' = N'.take k ++ N'.drop k := (List.take_append_drop k N').symm
      have hlex' : List.Lex (· < ·) (N'.drop k) ((N'.drop k).insertionSort (· ≤ ·)) := by
        apply lex_of_append_left (N'.take k)
        rw [← e2]; exact h1
      rcases sorted_lt_min_perm _ (N'.drop k) hsorted
          (List.perm_insertionSort (· ≤ ·) _).symm with h2 | h2
      · rw [h2] at hlex'; exact lex_irrefl _ hlex'
      · exact lex_asymm hlex' h2
  · -- nothing lies strictly between the two k-prefixes
    intro q hq hlq
    obtain ⟨m, hm, hmq, r, hmr⟩ := isKPerm_extend base hnd k q hq
    have hlm : List.Lex (· < ·) l1 m := by
      have := lex_append_of_length_eq hlq (by rw [hlenT, hq.2.1]) (l1.drop k) r
      rw [← htake, List.take_append_drop, ← hmr] at this
      exact this
    rcases hmin m (hm.trans (hperm.trans hN).symm) hlm with h1 | h1
    · left; rw [h1, hmq]
    · rcases lex_take k h1 with h2 | h2
      · left; rw [h2, hmq]
      · right; rw [hmq] at h2; exact h2

/-- The k-prefix of the sorted base set is the least k-permutation. -/
theorem sorted_take_min (base : List α) (hnd : base.Nodup) (k : Nat) (S : List α)
    (hS : S.Perm base) (hs : S.Sorted (· < ·)) (q : List α) (hq : IsKPerm base k q) :
    S.take k = q ∨ List.Lex (· < ·) (S.take k) q := by
  obtain ⟨m, hm, hmq, _⟩ := isKPerm_extend base hnd k q hq
  rcases sorted_lt_min_perm S m hs (hm.trans hS.symm) with h1 | h1
  · left; rw [h1, hmq]
  · rcases lex_take k h1 with h2 | h2
    · left; rw [h2, hmq]
    · right; rw [hmq] at h2; exact h2

end PartialStep

/-! ### The enumeration loop -/

section Loop

variable {α : Type} [LinearOrder α]

theorem sorted_base (base : List α) (hnd : base.Nodup) :
    (base.insertionSort (· ≤ ·)).Perm base ∧ (base.insertionSort (· ≤ ·)).Sorted (· < ·) :=
  ⟨List.perm_insertionSort _ _,
    (List.sorted_insertionSort (· ≤ ·) _).lt_of_le
      ((List.perm_insertionSort (· ≤ ·) _).nodup_iff.2 hnd)⟩

/-- Every value of `N` at the top of the loop body is an arrangement of the base set whose part
after position `k` is ascending. -/
theorem loopState_inv (base : List α) (hnd : base.Nodup) (k : Nat) (hk : k ≤ base.length)
    (N : List α) (h : LoopState k base N) : N.Perm base ∧ (N.drop k).Sorted (· < ·) := by
  induction h with
  | start =>
    obtain ⟨h1, h2⟩ := sorted_base base hnd
    exact ⟨h1, List.Pairwise.sublist (List.drop_sublist k _) h2⟩
  | step N _ htrue ih =>
    obtain ⟨h1, h2, _⟩ := step_true base hnd k N ih.1 (by rw [ih.1.length_eq]; exact hk) ih.2
      htrue
    exact ⟨h1, h2⟩

/-- From a state whose part after position `k` is ascending, the loop, given more passes than
there are k-permutations above the current k-prefix, ends; it emits the current k-prefix first,
then strictly greater and greater ones, all of them k-permutations, and misses no k-permutation
above the current k-prefix. -/
theorem enumLoop_spec (base : List α) (hnd : base.Nodup) (k : Nat) (hk : k ≤ base.length)
    (fuel : Nat) (N : List α) (hN : N.Perm base) (hs : (N.drop k).Sorted (· < ·))
    (hfuel : (kpermsOf k base).countP (fun q => decide (List.Lex (· < ·) (N.take k) q)) <
      fuel) :
    ∃ E : List (List α), enumLoop (fun N => N.take k) k fuel N = some E ∧
      E.head? = some (N.take k) ∧ E.Chain' (List.Lex (· < ·)) ∧
      (∀ q ∈ E, IsKPerm base k q) ∧
      (∀ q, IsKPerm base k q → (N.take k = q ∨ List.Lex (· < ·) (N.take k) q) → q ∈ E) := by
  induction fuel generalizing N with
  | zero => omega
  | succ fuel ih =>
    have hkN : k ≤ N.length := by rw [hN.length_eq]; exact hk
    have hcur : IsKPerm base k (N.take k) := isKPerm_take base hnd k hk N hN
    unfold enumLoop
    cases hb : (next_partial_permutation k N).1 with
    | false =>
      have e : next_partial_permutation k N = (false, (next_partial_permutation k N).2) := by
        rw [← hb]
      rw [e]
      refine ⟨[N.take k], rfl, rfl, List.chain'_singleton _, ?_, ?_⟩
      · intro q hq
        rw [List.mem_singleton] at hq
        rw [hq]; exact hcur
      · intro q hq hge
        rw [List.mem_singleton]
        rcases hge with h | h
        · exact h.symm
        · rcases step_false base hnd k N hN hkN hb q hq with h' | h'
          · exact h'
          · exact absurd (lex_trans h h') (lex_irrefl _)
    | true =>
      have e : next_partial_permutation k N = (true, (next_partial_permutation k N).2) := by
        rw [← hb]
      rw [e]
      obtain ⟨h1, h2, h3, h4⟩ := step_true base hnd k N hN hkN hs hb
      generalize (next_partial_permutation k N).2 = N' at h1 h2 h3 h4
      have hnext : IsKPerm base k (N'.take k) := isKPerm_take base hnd k hk N' h1
      have hlt : (kpermsOf k base).countP
          (fun q => decide (List.Lex (· < ·) (N'.take k) q)) <
          (kpermsOf k base).countP (fun q => decide (List.Lex (· < ·) (N.take k) q)) := by
        apply countP_lt_countP
        · intro x _ hx
          simp only [decide_eq_true_eq] at hx ⊢
          exact lex_trans h3 hx
        · refine ⟨N'.take k, (mem_kpermsOf k base hnd _).2 hnext, ?_, ?_⟩
          · simpa using h3
          · simpa using lex_irrefl (N'.take k)
      obtain ⟨E', hE', hhead, hchain, hall, hmem⟩ := ih N' h1 h2 (by omega)
      refine ⟨N.take k :: E', by simp [hE'], rfl, ?_, ?_, ?_⟩
      · rw [List.chain'_cons']
        refine ⟨?_, hchain⟩
        intro y hy
        rw [hhead] at hy
        rw [← Option.some.inj hy]
        exact h3
      · intro q hq
        rcases List.mem_cons.1 hq with rfl | hq
        · exact hcur
        · exact hall q hq
      · intro q hq hge
        rcases hge with h | h
        · rw [← h]; exact List.mem_cons_self _ _
        · exact List.mem_cons_of_mem _ (hmem q hq (h4 q hq h))

/-- The loop of `main`, given at least `n!/(n-k)!` passes, ends, and emits every k-permutation
of the base set exactly once, in strictly increasing lexicographic order. -/
theorem kWordSeqs_spec (base : List α) (hnd : base.Nodup) (k : Nat) (hk : k ≤ base.length)
    (fuel : Nat) (hfuel : base.length.factorial / (base.length - k).factorial ≤ fuel) :
    ∃ E : List (List α), kWordSeqs k fuel base = some E ∧
      E.length = base.length.factorial / (base.length - k).factorial ∧
      E.Nodup ∧ (∀ q, q ∈ E ↔ IsKPerm base k q) ∧ E.Chain' (List.Lex (· < ·)) := by
  obtain ⟨hSp, hSs⟩ := sorted_base base hnd
  have hlen : (kpermsOf k base).length = base.length.factorial / (base.length - k).factorial := by
    rw [length_kpermsOf, Nat.descFactorial_eq_div hk]
  have hfirst : IsKPerm base k ((base.insertionSort (· ≤ ·)).take k) :=
    isKPerm_take base hnd k hk _ hSp
  have hcount : (kpermsOf k base).countP
      (fun q => decide (List.Lex (· < ·) ((base.insertionSort (· ≤ ·)).take k) q)) < fuel := by
    have h1 : (kpermsOf k base).countP
        (fun q => decide (List.Lex (· < ·) ((base.insertionSort (· ≤ ·)).take k) q)) <
        (kpermsOf k base).countP (fun _ => true) := by
      apply countP_lt_countP
      · intro _ _ _; rfl
      · exact ⟨_, (mem_kpermsOf k base hnd _).2 hfirst, rfl, by simpa using lex_irrefl _⟩
    have h2 : (kpermsOf k base).countP (fun _ => true) = (kpermsOf k base).length := by
      rw [List.countP_eq_length]; intro _ _; rfl
    omega
  obtain ⟨E, hE, _, hchain, hall, hmem⟩ := enumLoop_spec base hnd k hk fuel _ hSp
    (List.Pairwise.sublist (List.drop_sublist k _) hSs) hcount
  have hnodup : E.Nodup := by
    have hpw : E.Pairwise (List.Lex (· < ·)) := by
      have : IsTrans (List α) (List.Lex (· < ·)) := ⟨fun _ _ _ h1 h2 => lex_trans h1 h2⟩
      exact List.chain'_iff_pairwise.1 hchain
    have hne : ∀ {a b : List α}, List.Lex (· < ·) a b → a ≠ b := by
      intro a b h e
      rw [e] at h
      exact lex_irrefl _ h
    exact hpw.imp hne
  have hiff : ∀ q, q ∈ E ↔ IsKPerm base k q := by
    intro q
    exact ⟨hall q, fun hq => hmem q hq (sorted_take_min base hnd k _ hSp hSs q hq)⟩
  refine ⟨E, hE, ?_, hnodup, hiff, hchain⟩
  have hperm : E.Perm (kpermsOf k base) :=
    (List.perm_ext_iff_of_nodup hnodup (nodup_kpermsOf k base hnd)).2
      (fun q => (hiff q).trans (mem_kpermsOf k base hnd q).symm)
  rw [hperm.length_eq, hlen]

end Loop

/-! ### The vector `k_perms` of `main` -/

theorem enumLoop_map {α β γ : Type} [LinearOrder α] (f : List α → β) (g : β → γ) (k : Nat)
    (fuel : Nat) (N : List α) :
    enumLoop (fun N => g (f N)) k fuel N = (enumLoop f k fuel N).map (List.map g) := by
  induction fuel generalizing N with
  | zero => rfl
  | succ fuel ih =>
    unfold enumLoop
    cases hb : (next_partial_permutation k N).1 with
    | false =>
      have e : next_partial_permutation k N = (false, (next_partial_permutation k N).2) := by
        rw [← hb]
      rw [e]; rfl
    | true =>
      have e : next_partial_permutation k N = (true, (next_partial_permutation k N).2) := by
        rw [← hb]
      rw [e]
      simp only [ih]
      cases enumLoop f k fuel (next_partial_permutation k N).2 <;> rfl

/-- The string `main` pushes is the words `N[0], ..., N[k-1]` joined by single spaces. -/
theorem candidate_eq_intercalate (k : Nat) (hk : 1 ≤ k) (N : List (List Char)) :
    candidate k N = [' '].intercalate (N.take k) := by
  obtain ⟨j, rfl⟩ : ∃ j, k = j + 1 := ⟨k - 1, by omega⟩
  cases N with
  | nil => simp [candidate, List.intercalate]
  | cons x rest =>
    rw [List.take_succ_cons, intercalate_cons]
    rfl

theorem k_perms_eq (k : Nat) (hk : 1 ≤ k) (fuel : Nat) (N : List (List Char)) :
    k_perms k fuel N = (kWordSeqs k fuel N).map (List.map ([' '].intercalate)) := by
  unfold k_perms kWordSeqs
  rw [← enumLoop_map]
  congr 1
  funext N
  exact candidate_eq_intercalate k hk N

/-- C1: for a duplicate-free base set of `n` words and `1 <= k <= n`, the enumeration loop of
`main` (sort, emit the first `k` words, step with `next_partial_permutation` until it returns
`false`) ends within `n!/(n-k)!` passes; the k-word sequences it emits, whose renderings with
single spaces are the entries of `k_perms`, number `n!/(n-k)!`, are pairwise different, and are
exactly the ordered selections of `k` distinct words of the base set. -/
theorem k_perms_exactly_once (base : List (List Char)) (hnd : base.Nodup) (k : Nat)
    (hk1 : 1 ≤ k) (hk : k ≤ base.length) (fuel : Nat)
    (hfuel : base.length.factorial / (base.length - k).factorial ≤ fuel) :
    ∃ E : List (List (List Char)),
      kWordSeqs k fuel base = some E ∧
      k_perms k fuel base = some (E.map ([' '].intercalate)) ∧
      E.length = base.length.factorial / (base.length - k).factorial ∧
      E.Nodup ∧
      ∀ q : List (List Char), q ∈ E ↔ (q.Nodup ∧ q.length = k ∧ ∀ w ∈ q, w ∈ base) := by
  obtain ⟨E, hE, hlen, hnodup, hmem, _⟩ := kWordSeqs_spec base hnd k hk fuel hfuel
  refine ⟨E, hE, ?_, hlen, hnodup, hmem⟩
  rw [k_perms_eq k hk1, hE]
  rfl

/-- Witness for `k_perms_exactly_once`: the base set `{"b", "a"}` with `k = 2`, whose candidates
are `"a b"` and `"b a"`. -/
theorem k_perms_exactly_once_witness :
    k_perms 2 2 ["b".toList, "a".toList] = some ["a b".toList, "b a".toList] ∧
    ∃ E : List (List (List Char)),
      kWordSeqs 2 2 ["b".toList, "a".toList] = some E ∧
      k_perms 2 2 ["b".toList, "a".toList] = some (E.map ([' '].intercalate)) ∧
      E.length = 2 ∧ E.Nodup ∧
      ∀ q : List (List Char), q ∈ E ↔
        (q.Nodup ∧ q.length = 2 ∧ ∀ w ∈ q, w ∈ ["b".toList, "a".toList]) :=
  ⟨by decide,
    k_perms_exactly_once ["b".toList, "a".toList] (by decide) 2 (by decide) (by decide) 2
      (by decide)⟩

/-- C2: for a duplicate-free base set and `1 <= k <= n`, whenever `next_partial_permutation`
returns `true` in the loop of `main`, the k-prefix after the step is strictly greater, in
lexicographic order, than the k-prefix before; so the k-word sequences the loop emits are
strictly increasing from each one to the next.  The base set `{"b", "a"}` with `k = 2` gives
`k_perms = ["a b", "b a"]`. -/
theorem k_prefix_increasing (base : List (List Char)) (hnd : base.Nodup) (k : Nat)
    (hk1 : 1 ≤ k) (hk : k ≤ base.length) :
    (∀ N : List (List Char), LoopState k base N →
      (next_partial_permutation k N).1 = true →
      List.Lex (· < ·) (N.take k) (((next_partial_permutation k N).2).take k)) ∧
    (∀ fuel : Nat, base.length.factorial / (base.length - k).factorial ≤ fuel →
      ∃ E : List (List (List Char)),
        kWordSeqs k fuel base = some E ∧
        k_perms k fuel base = some (E.map ([' '].intercalate)) ∧
        E.Chain' (List.Lex (· < ·))) ∧
    k_perms 2 2 ["b".toList, "a".toList] = some ["a b".toList, "b a".toList] := by
  refine ⟨?_, ?_, by decide⟩
  · intro N hN htrue
    obtain ⟨h1, h2⟩ := loopState_inv base hnd k hk N hN
    exact (step_true base hnd k N h1 (by rw [h1.length_eq]; exact hk) h2 htrue).2.2.1
  · intro fuel hfuel
    obtain ⟨E, hE, _, _, _, hchain⟩ := kWordSeqs_spec base hnd k hk fuel hfuel
    refine ⟨E, hE, ?_, hchain⟩
    rw [k_perms_eq k hk1, hE]
    rfl

/-- Witness for `k_prefix_increasing`: the one step of the loop for `{"b", "a"}`, `k = 2`. -/
theorem k_prefix_increasing_witness :
    (next_partial_permutation 2 ["a".toList, "b".toList]).1 = true ∧
    List.Lex (· < ·) (["a".toList, "b".toList].take 2)
      (((next_partial_permutation 2 ["a".toList, "b".toList]).2).take 2) :=
  ⟨by decide,
    (k_prefix_increasing ["b".toList, "a".toList] (by decide) 2 (by decide) (by decide)).1
      ["a".toList, "b".toList] LoopState.start (by decide)⟩

end Bforce
